import Mathlib

/-!
Verification model of the ESP32 POCSAG pager firmware core
(`src/Arduino Sketch/src/main.cpp`).

The firmware keeps a 64-slot ring-buffer inbox of received messages,
persists it to a line-oriented text file, maintains a software wall clock,
and drives two cooperative notification state machines (buzzer/LED pattern
player and a 30-second reminder pulser).

Modelling conventions:
  * Arduino `String` values are modelled as `List Char` (byte strings of
    characters); Arduino `String` member functions (`indexOf`, `substring`,
    `trim`, `toInt`, `replace`) are given char-list models below.
  * `unsigned long` (`millis()` timestamps) is modelled as `Nat` carrying
    the uint32 value; wraparound subtraction `a - b` on `unsigned long` is
    `u32sub`, additions that can wrap take `% 2^32` (`u32`).
  * C `int` fields of `PagerTime` are modelled as `Int`.
  * The LittleFS file is modelled as its content, a `List Char`; opening
    the file is modelled as succeeding (`storageOk = true` path).  Display
    rendering and the buzzer `tone(...)` call change no modelled state.
  * Unbounded C `while` loops are modelled with explicit fuel; where the
    fuel could in principle run out on states the firmware can never reach,
    the function returns `Option` and theorems prove the `some` case.
-/

set_option maxRecDepth 65536

/-! ### Unsigned 32-bit arithmetic on `Nat` -/

/-- Truncation to `unsigned long` (uint32) range. -/
def u32 (n : Nat) : Nat := n % 4294967296

/-- `a - b` on `unsigned long`: wraparound subtraction of uint32 values.
Callers pass `a`, `b` already in uint32 range. -/
def u32sub (a b : Nat) : Nat := (a + 4294967296 - u32 b) % 4294967296

theorem u32sub_of_le {a b : Nat} (hba : b ≤ a) (h : a - b < 4294967296)
    (hb : b < 4294967296) : u32sub a b = a - b := by
  unfold u32sub u32
  rw [Nat.mod_eq_of_lt hb]
  omega

theorem u32_of_lt {n : Nat} (h : n < 4294967296) : u32 n = n := Nat.mod_eq_of_lt h

/-! ### Character helpers (Arduino `String` is a byte string) -/

/-- The characters C `isspace` accepts (used by Arduino `String::trim`). -/
def isSpaceCh (c : Char) : Bool :=
  c = ' ' || c = '\t' || c = '\n' || c = Char.ofNat 11 || c = Char.ofNat 12 || c = '\r'

/-- ASCII decimal digit test ('0'..'9'), as used by `strtol`. -/
def isDigitCh (c : Char) : Bool := 48 ≤ c.toNat && c.toNat ≤ 57

/-- Numeric value of a digit character. -/
def digitVal (c : Char) : Nat := c.toNat - 48

/-- Digit character for a value 0..9. -/
def digitChar (d : Nat) : Char := Char.ofNat (48 + d)

theorem digitChar_isDigit : ∀ d < 10, isDigitCh (digitChar d) = true := by decide

theorem digitChar_not_space : ∀ d < 10, isSpaceCh (digitChar d) = false := by decide

theorem digitChar_ne_bar : ∀ d < 10, (digitChar d = '|') = False := by decide

/-! ### Decimal printing (model of `Print::print(unsigned long)` / `snprintf`) -/

/-- Decimal digits of `n`, most significant first (`Print` writes numbers
in decimal with no sign or padding). -/
def natToDecimalAux (n : Nat) (acc : List Char) : List Char :=
  if n < 10 then digitChar n :: acc
  else natToDecimalAux (n / 10) (digitChar (n % 10) :: acc)
termination_by n
decreasing_by exact Nat.div_lt_self (by omega) (by omega)

def natToDecimal (n : Nat) : List Char := natToDecimalAux n []

/-- Zero padding to a minimum width, as `snprintf` `%0wd` does for
nonnegative values. -/
def padZeros (w : Nat) (s : List Char) : List Char :=
  List.replicate (w - s.length) '0' ++ s

/-- `snprintf` `%0wd` for a C `int` value: sign first, zero padding counts
toward the field width. -/
def intToPadded (w : Nat) (i : Int) : List Char :=
  if i < 0 then '-' :: padZeros (w - 1) (natToDecimal (-i).toNat)
  else padZeros w (natToDecimal i.toNat)

/-! ### `strtol`-style parsing (model of Arduino `String::toInt`, i.e. `atol`
with 32-bit `long`: skips leading whitespace, optional sign, reads digits,
saturates at `LONG_MAX`/`LONG_MIN`, returns 0 when no digits) -/

def parseDigitsAcc (acc : Nat) : List Char → Nat
  | [] => acc
  | c :: cs => if isDigitCh c then parseDigitsAcc (acc * 10 + digitVal c) cs else acc

/-- Model of `String::toInt()` (= `atol` on a 32-bit platform). -/
def strToInt (l : List Char) : Int :=
  let l1 := l.dropWhile isSpaceCh
  match l1 with
  | '-' :: r =>
      let n := parseDigitsAcc 0 r
      if n > 2147483648 then -2147483648 else -(n : Int)
  | '+' :: r =>
      let n := parseDigitsAcc 0 r
      if n > 2147483647 then 2147483647 else (n : Int)
  | r =>
      let n := parseDigitsAcc 0 r
      if n > 2147483647 then 2147483647 else (n : Int)

/-- Cast of a C `long` result to `uint32_t` (two's complement). -/
def toUInt32 (i : Int) : Nat := (i % 4294967296).toNat

/-! ### Arduino `String` member function models over `List Char` -/

/-- First index of `x` in a list (Arduino `String::indexOf(ch)`), `none` for
"not found" (C returns -1). -/
def firstIdx {α : Type} [DecidableEq α] (x : α) : List α → Option Nat
  | [] => none
  | y :: ys => if y = x then some 0 else (firstIdx x ys).map (fun n => n + 1)

/-- `String::indexOf(ch, fromIndex)`: first occurrence at index ≥ `start`,
reported as an absolute index. -/
def idxFrom (l : List Char) (c : Char) (start : Nat) : Option Nat :=
  (firstIdx c (l.drop start)).map (fun n => n + start)

/-- `String::substring(a, b)`: characters at indices `a..b-1`. -/
def substr (l : List Char) (a b : Nat) : List Char := (l.take b).drop a

/-- `String::trim()`: strip leading and trailing `isspace` characters. -/
def trimStr (l : List Char) : List Char :=
  ((l.dropWhile isSpaceCh).reverse.dropWhile isSpaceCh).reverse

/-- `String::replace(ch, ch')` applied for `'\n'` and `'\r'` → `' '`:
the body-text flattening `saveInboxToFS` performs before writing. -/
def flattenText (l : List Char) : List Char :=
  l.map (fun c => if c = '\n' then ' ' else if c = '\r' then ' ' else c)

/-- Split file content at `'\n'` (the read side consumes the file with
`readStringUntil('\n')`; a trailing empty chunk corresponds to the final
newline and is skipped by the loader's empty-line check). -/
def splitNL : List Char → List (List Char)
  | [] => [[]]
  | x :: xs =>
    match splitNL xs with
    | [] => [[]]
    | r :: rs => if x = '\n' then [] :: r :: rs else (x :: r) :: rs

/-! ### Time model: `PagerTime` and the software clock -/

/-- `struct PagerTime` (C `int` fields). -/
structure PagerTime where
  year : Int
  month : Int
  day : Int
  hour : Int
  minute : Int
  second : Int
  valid : Bool
deriving DecidableEq, Repr

/-- The zeroed `PagerTime` `storeMessage` writes when no time is known. -/
def zeroTimeInvalid : PagerTime :=
  { year := 0, month := 0, day := 0, hour := 0, minute := 0, second := 0, valid := false }

/-- The month-length table used by `tickPagerClock` (fixed 28-day February,
no leap years). -/
def daysInMonth (m : Int) : Int :=
  if m = 4 ∨ m = 6 ∨ m = 9 ∨ m = 11 then 30
  else if m = 2 then 28
  else 31

/-- One iteration body of the catch-up loop in `tickPagerClock`: advance the
wall-clock value by one second with carry into minute, hour, day, month and
year. -/
def stepSecond (pt : PagerTime) : PagerTime :=
  let pt := { pt with second := pt.second + 1 }
  let pt := if pt.second ≥ 60 then { pt with second := 0, minute := pt.minute + 1 } else pt
  let pt := if pt.minute ≥ 60 then { pt with minute := 0, hour := pt.hour + 1 } else pt
  if pt.hour ≥ 24 then
    let pt := { pt with hour := 0, day := pt.day + 1 }
    if pt.day > daysInMonth pt.month then
      let pt := { pt with day := 1, month := pt.month + 1 }
      if pt.month > 12 then { pt with month := 1, year := pt.year + 1 } else pt
    else pt
  else pt

/-- The catch-up `while` loop of `tickPagerClock`, with fuel.  The C loop
runs at most `2^32 / 1000 + 1` times (each iteration adds 1000 to
`lastTimeUpdateMillis`, mod 2^32), so fuel 4294968 always suffices. -/
def tickLoop (pt : PagerTime) (last now : Nat) : Nat → PagerTime × Nat
  | 0 => (pt, last)
  | fuel + 1 =>
    if u32sub now last ≥ 1000 then
      tickLoop (stepSecond pt) (u32 (last + 1000)) now fuel
    else (pt, last)

/-- `tickPagerClock()`: advance `pagerTime` from `lastTimeUpdateMillis` to
`now` (= `millis()`), one second per whole 1000 ms elapsed. -/
def tickPagerClock (pt : PagerTime) (last now : Nat) : PagerTime × Nat :=
  if !pt.valid then (pt, last)
  else tickLoop pt last now 4294968

/-! ### Inbox data model -/

/-- `struct PageMessage`. -/
structure PageMessage where
  addr : Nat
  ricName : List Char
  text : List Char
  time : PagerTime
  valid : Bool
deriving DecidableEq, Repr

/-- Default slot content (global `inbox[]` array before first use). -/
def defaultMsg : PageMessage :=
  { addr := 0, ricName := [], text := [], time := zeroTimeInvalid, valid := false }

/-- The inbox globals: `inbox[INBOX_SIZE]`, `inboxCount`, `inboxWriteIndex`,
`inboxTotal`, `inboxCurrent`.  `inbox` is a 64-element list. -/
structure InboxSt where
  inbox : List PageMessage
  inboxCount : Nat
  inboxWriteIndex : Nat
  inboxTotal : Nat
  inboxCurrent : Nat
deriving DecidableEq, Repr

/-- `INBOX_SIZE`. -/
def INBOX_SIZE : Nat := 64

/-- A fresh all-invalid inbox (the global arrays at boot). -/
def emptyInbox : InboxSt :=
  { inbox := List.replicate 64 defaultMsg, inboxCount := 0, inboxWriteIndex := 0,
    inboxTotal := 0, inboxCurrent := 0 }

/-- `resetInboxMemory()`: zero the counters and clear every slot's `valid`
flag (other slot fields are left as they were). -/
def resetInboxMemory (st : InboxSt) : InboxSt :=
  { st with
    inboxCount := 0, inboxWriteIndex := 0, inboxTotal := 0, inboxCurrent := 0,
    inbox := st.inbox.map (fun m => { m with valid := false }) }

/-- `restorePushMessage(msg)`: write `msg` (forced valid) at the write
cursor, advance the cursor, bump `inboxCount` up to the cap, mirror it into
`inboxTotal`. -/
def restorePushMessage (st : InboxSt) (msg : PageMessage) : InboxSt :=
  let st := { st with inbox := st.inbox.set st.inboxWriteIndex { msg with valid := true } }
  let st := { st with inboxWriteIndex := (st.inboxWriteIndex + 1) % 64 }
  let st := if st.inboxCount < 64 then { st with inboxCount := st.inboxCount + 1 } else st
  { st with inboxTotal := st.inboxCount }

/-- Valid records oldest-to-newest in ring order: the logical content of the
store (slot `writeCursor - liveCount + j` holds the `j`-th oldest record). -/
def ringList (st : InboxSt) : List PageMessage :=
  (List.range st.inboxCount).map
    (fun j => st.inbox.getD ((st.inboxWriteIndex + (64 - st.inboxCount) + j) % 64) defaultMsg)

/-- Well-formedness of the inbox globals: 64 slots, counters in range, and
the slots holding `valid=true` are exactly the `liveCount` slots that
precede the write cursor in ring order.  Every state reachable from
`resetInboxMemory` by `storeMessage`/`restorePushMessage` satisfies this. -/
def WF (st : InboxSt) : Prop :=
  st.inbox.length = 64 ∧ st.inboxCount ≤ 64 ∧ st.inboxWriteIndex < 64 ∧
  ∀ i, i < 64 →
    ((st.inbox.getD ((st.inboxWriteIndex + i) % 64) defaultMsg).valid = true ↔
      64 - st.inboxCount ≤ i)

instance (st : InboxSt) : Decidable (WF st) := by
  unfold WF; infer_instance

/-! ### The remaining firmware globals: one system state -/

/-- `struct NotifyState`. -/
structure NotifyState where
  active : Bool
  lastStepMillis : Nat
  step : Nat
  ringToneChoice : Nat
deriving DecidableEq, Repr

/-- The firmware globals the modelled core touches: inbox, clock, reminder
machine, notification machine, and the LED output level. -/
structure Sys where
  ib : InboxSt
  pagerTime : PagerTime
  lastTimeUpdateMillis : Nat
  newMessagePending : Bool
  lastReminderBlinkMillis : Nat
  reminderPulseActive : Bool
  reminderPulseEndMillis : Nat
  notify : NotifyState
  led : Bool
deriving DecidableEq, Repr

/-- `NOTIFY_STEP_MS`. -/
def NOTIFY_STEP_MS : Nat := 100

/-- `NOTIFY_LED_STEPS`. -/
def NOTIFY_LED_STEPS : Nat := 40

/-- `REMINDER_INTERVAL_MS`. -/
def REMINDER_INTERVAL_MS : Nat := 30000

/-- `REMINDER_PULSE_MS`. -/
def REMINDER_PULSE_MS : Nat := 50

/-- `storeMessage(addr, ricName, text)` at time `now` (= `millis()`): write
the new record at the cursor (stamped with `pagerTime`, or a zeroed invalid
time), advance the ring, re-anchor `inboxCurrent` to the stored slot,
persist (`saveInboxToFS`, no RAM effect), raise the unacknowledged flag and
reset the reminder interval timer. -/
def storeMessage (sys : Sys) (addr : Nat) (ricName text : List Char) (now : Nat) : Sys :=
  let t := if sys.pagerTime.valid then sys.pagerTime else zeroTimeInvalid
  let msg : PageMessage :=
    { addr := addr, ricName := ricName, text := text, time := t, valid := true }
  let st := sys.ib
  let storedIndex := st.inboxWriteIndex
  let st := { st with inbox := st.inbox.set st.inboxWriteIndex msg }
  let st := { st with inboxWriteIndex := (st.inboxWriteIndex + 1) % 64 }
  let st := if st.inboxCount < 64 then { st with inboxCount := st.inboxCount + 1 } else st
  let st := { st with inboxTotal := st.inboxCount, inboxCurrent := storedIndex }
  { sys with ib := st, newMessagePending := true, lastReminderBlinkMillis := now }

/-! ### Persistence: `saveInboxToFS` -/

/-- Timestamp field written by `saveInboxToFS`: 14-digit
`YYYYMMDDHHMMSS` via `snprintf` into a 16-byte buffer (so at most 15
characters survive), or the absence marker `-`. -/
def timeField (t : PagerTime) : List Char :=
  if t.valid then
    (intToPadded 4 t.year ++ intToPadded 2 t.month ++ intToPadded 2 t.day ++
      intToPadded 2 t.hour ++ intToPadded 2 t.minute ++ intToPadded 2 t.second).take 15
  else ['-']

/-- One persisted line (without the terminating newline):
`addr|ricName|timestamp|flattenedText`. -/
def msgLine (m : PageMessage) : List Char :=
  natToDecimal m.addr ++ '|' :: (m.ricName ++ '|' :: (timeField m.time ++ '|' :: flattenText m.text))

/-- Scan for the oldest valid message: first valid slot at ring offset
`i = 0, 1, ...` from the write cursor (the C `for` loop over 64 offsets). -/
def findOldestGo (st : InboxSt) (i : Nat) : Nat → Option Nat
  | 0 => none
  | rem + 1 =>
    let idx := (st.inboxWriteIndex + i) % 64
    if (st.inbox.getD idx defaultMsg).valid then some idx
    else findOldestGo st (i + 1) rem

def findOldest (st : InboxSt) : Option Nat := findOldestGo st 0 64

/-- The write loop of `saveInboxToFS`: starting at `idx`, emit every valid
slot until `written` reaches `inboxCount`.  The C loop is unbounded; under
`WF` it takes at most 64 steps, so fuel 65 suffices and `none` (fuel
exhausted = the C loop not terminating) is unreachable. -/
def saveLoop (st : InboxSt) (idx written : Nat) : Nat → Option (List (List Char))
  | 0 => none
  | fuel + 1 =>
    if written < st.inboxCount then
      let m := st.inbox.getD idx defaultMsg
      if m.valid then
        (saveLoop st ((idx + 1) % 64) (written + 1) fuel).map (fun rest => msgLine m :: rest)
      else saveLoop st ((idx + 1) % 64) written fuel
    else some []

/-- Join lines into file content, one `'\n'` after each line. -/
def joinLines (ls : List (List Char)) : List Char :=
  (ls.map (fun l => l ++ ['\n'])).flatten

/-- `saveInboxToFS()` on the `storageOk` path: the file content written.
An empty store writes an empty file; the "no valid messages" fallback
closes the file having written nothing. -/
def saveInboxToFS (st : InboxSt) : Option (List Char) :=
  if st.inboxCount = 0 then some []
  else
    match findOldest st with
    | none => some []
    | some oldest => (saveLoop st oldest 0 65).map joinLines

/-! ### Persistence: `loadInboxFromFS` -/

/-- Per-line work of the load loop: trim, skip empty lines, find the first
three `'|'` delimiters (skip the line if any is missing), split the fields,
parse address and timestamp.  `none` means the line is skipped.  (For a
malformed timestamp the C code leaves the record's time fields
uninitialized and only clears `time.valid`; the model zeroes them, and no
theorem reads time fields of a record whose `time.valid` is false.) -/
def parseLine (l : List Char) : Option PageMessage :=
  let line := trimStr l
  if line.length = 0 then none
  else
    match idxFrom line '|' 0 with
    | none => none
    | some p1 =>
      match idxFrom line '|' (p1 + 1) with
      | none => none
      | some p2 =>
        match idxFrom line '|' (p2 + 1) with
        | none => none
        | some p3 =>
          let sAddr := substr line 0 p1
          let sRic := substr line (p1 + 1) p2
          let sTime := substr line (p2 + 1) p3
          let sText := line.drop (p3 + 1)
          let t : PagerTime :=
            if sTime ≠ ['-'] ∧ 14 ≤ sTime.length then
              { year := strToInt (substr sTime 0 4)
                month := strToInt (substr sTime 4 6)
                day := strToInt (substr sTime 6 8)
                hour := strToInt (substr sTime 8 10)
                minute := strToInt (substr sTime 10 12)
                second := strToInt (substr sTime 12 14)
                valid := true }
            else zeroTimeInvalid
          some { addr := toUInt32 (strToInt sAddr), ricName := sRic, text := sText,
                 time := t, valid := true }

/-- The line loop of `loadInboxFromFS`: push each parsed record, stop as
soon as the store is full. -/
def loadLines : List (List Char) → InboxSt → InboxSt
  | [], st => st
  | l :: ls, st =>
    match parseLine l with
    | none => loadLines ls st
    | some msg =>
      let st := restorePushMessage st msg
      if 64 ≤ st.inboxCount then st else loadLines ls st

/-- `loadInboxFromFS()` on the path where the file exists and opens: reset
the store, load line by line, then point `inboxCurrent` at the newest
(last pushed) record. -/
def loadInboxFromFS (st : InboxSt) (content : List Char) : InboxSt :=
  let st := loadLines (splitNL content) (resetInboxMemory st)
  let st := { st with inboxTotal := st.inboxCount }
  if 0 < st.inboxCount then
    { st with inboxCurrent := (st.inboxWriteIndex + 64 - 1) % 64 }
  else st

/-! ### Status bar "x/n": logical position (from `drawClockBar`) -/

/-- The scan in `drawClockBar` that computes the "x/n" numerator: walk the
slots in array order `0..63`, count valid ones, stop at `inboxCurrent`.
If the loop never hits `inboxCurrent`, `logicalPos` keeps its initial 0. -/
def logicalPosGo (st : InboxSt) : List Nat → Nat → Nat
  | [], _ => 0
  | i :: is, seen =>
    if (st.inbox.getD i defaultMsg).valid then
      if i = st.inboxCurrent then seen + 1 else logicalPosGo st is (seen + 1)
    else logicalPosGo st is seen

/-- The "x" of the status bar's "x/n" (only drawn when `inboxCount > 0`). -/
def logicalPosOf (st : InboxSt) : Nat := logicalPosGo st (List.range 64) 0

/-! ### Inbox browsing: `inboxShowNext` / `inboxShowPrev` -/

/-- The selection-repair step of `displayInbox`: if `inboxCurrent` is out of
range or invalid, move it to the highest-index valid slot (scanning
`63, 62, ..., 0`); if none is found it is left unchanged. -/
def repairGo (st : InboxSt) : List Nat → Nat
  | [] => st.inboxCurrent
  | i :: is => if (st.inbox.getD i defaultMsg).valid then i else repairGo st is

def displayInboxRepair (st : InboxSt) : InboxSt :=
  if st.inboxCount = 0 then st
  else if 64 ≤ st.inboxCurrent ∨ (st.inbox.getD st.inboxCurrent defaultMsg).valid = false then
    { st with inboxCurrent := repairGo st (List.range 64).reverse }
  else st

/-- The forward scan of `inboxShowNext`: step to `(idx+1) % 64` and test,
at most 64 times. -/
def scanFwd (st : InboxSt) (idx : Nat) : Nat → Option Nat
  | 0 => none
  | rem + 1 =>
    let idx := (idx + 1) % 64
    if (st.inbox.getD idx defaultMsg).valid then some idx else scanFwd st idx rem

/-- The backward scan of `inboxShowPrev`: step to `(idx - 1 + 64) % 64`
(written `(idx + 64 - 1) % 64`, which agrees on `Nat`) and test. -/
def scanBwd (st : InboxSt) (idx : Nat) : Nat → Option Nat
  | 0 => none
  | rem + 1 =>
    let idx := (idx + 64 - 1) % 64
    if (st.inbox.getD idx defaultMsg).valid then some idx else scanBwd st idx rem

/-- `inboxShowNext()`: move the selection to the nearest valid slot strictly
forward in ring order (wrapping), then redraw (which can repair the
selection). -/
def inboxShowNext (st : InboxSt) : InboxSt :=
  if st.inboxCount = 0 then st
  else
    match scanFwd st st.inboxCurrent 64 with
    | some idx => displayInboxRepair { st with inboxCurrent := idx }
    | none => displayInboxRepair st

/-- `inboxShowPrev()`: move the selection to the nearest valid slot strictly
backward in ring order (wrapping), then redraw. -/
def inboxShowPrev (st : InboxSt) : InboxSt :=
  if st.inboxCount = 0 then st
  else
    match scanBwd st st.inboxCurrent 64 with
    | some idx => displayInboxRepair { st with inboxCurrent := idx }
    | none => displayInboxRepair st

/-! ### Notification state machine: `ringBuzzer` / `handleNotify` -/

/-- `ringBuzzer(ringToneChoice)` at time `now`: unconditionally (re)start
the non-blocking notification pattern. -/
def ringBuzzer (sys : Sys) (ringToneChoice : Nat) (now : Nat) : Sys :=
  { sys with notify :=
      { active := true, lastStepMillis := now, step := 0, ringToneChoice := ringToneChoice } }

/-- `handleNotify()` at time `now`: one cooperative tick of the pattern
player.  The `tone(...)` call drives only the buzzer (no modelled state);
the LED toggles with the step parity for the first `NOTIFY_LED_STEPS`
steps, after which the machine deactivates and forces the LED low. -/
def handleNotify (sys : Sys) (now : Nat) : Sys :=
  if !sys.notify.active then sys
  else if u32sub now sys.notify.lastStepMillis < NOTIFY_STEP_MS then sys
  else
    let sys := { sys with notify := { sys.notify with lastStepMillis := now } }
    if sys.notify.step < NOTIFY_LED_STEPS then
      let sys := { sys with led := sys.notify.step % 2 = 0 }
      { sys with notify := { sys.notify with step := sys.notify.step + 1 } }
    else
      { sys with notify := { sys.notify with active := false }, led := false }

/-! ### Reminder state machine: `handleNewMessageReminder` -/

/-- `handleNewMessageReminder()` at time `now`: while a message is pending
and the notification player is idle, pulse the LED for
`REMINDER_PULSE_MS` every `REMINDER_INTERVAL_MS`. -/
def handleNewMessageReminder (sys : Sys) (now : Nat) : Sys :=
  if !sys.newMessagePending then
    if !sys.notify.active && !sys.reminderPulseActive then { sys with led := false } else sys
  else if sys.notify.active then sys
  else if sys.reminderPulseActive then
    if sys.reminderPulseEndMillis ≤ now then
      { sys with led := false, reminderPulseActive := false }
    else sys
  else if REMINDER_INTERVAL_MS ≤ u32sub now sys.lastReminderBlinkMillis then
    { sys with lastReminderBlinkMillis := now, led := true, reminderPulseActive := true,
               reminderPulseEndMillis := u32 (now + REMINDER_PULSE_MS) }
  else sys

/-- `onUpPressed()`: acknowledge pending messages and browse one message
back (display power-save bookkeeping is outside the model). -/
def onUpPressed (sys : Sys) : Sys :=
  let sys := { sys with newMessagePending := false }
  { sys with ib := inboxShowPrev sys.ib }

/-! ### General-purpose list helpers -/

theorem getD_set_self {α : Type} (l : List α) (i : Nat) (a d : α) (h : i < l.length) :
    (l.set i a).getD i d = a := by
  simp [List.getD, List.getElem?_set_eq_of_lt a h]

theorem getD_set_ne {α : Type} (l : List α) (i j : Nat) (a d : α) (h : i ≠ j) :
    (l.set i a).getD j d = l.getD j d := by
  simp [List.getD, List.getElem?_set_ne h]

theorem ringList_length (st : InboxSt) : (ringList st).length = st.inboxCount := by
  simp [ringList]

/-- A fixed baseline system state (fresh-boot globals) used to instantiate
witnesses. -/
def baseSys : Sys :=
  { ib := emptyInbox, pagerTime := zeroTimeInvalid, lastTimeUpdateMillis := 0,
    newMessagePending := false, lastReminderBlinkMillis := 0,
    reminderPulseActive := false, reminderPulseEndMillis := 0,
    notify := { active := false, lastStepMillis := 0, step := 0, ringToneChoice := 0 },
    led := false }

/-! ### C9: retriggering the notification player restarts it -/

/-- C9: triggering the notification player while it is already playing
restarts the pattern rather than being ignored: `ringBuzzer`
unconditionally sets `active`, resets `step` to 0, resets the step timer to
`now` and replaces the pattern id, regardless of the machine's prior
state. -/
theorem c9_retrigger_restarts (sys : Sys) (toneChoice now : Nat)
    (_h : sys.notify.active = true) :
    (ringBuzzer sys toneChoice now).notify =
      { active := true, lastStepMillis := now, step := 0, ringToneChoice := toneChoice } := rfl

theorem c9_retrigger_restarts_witness :
    ({ baseSys with
        notify := { active := true, lastStepMillis := 7, step := 13, ringToneChoice := 2 } :
        Sys }.notify.active = true) ∧
    (ringBuzzer
        { baseSys with
          notify := { active := true, lastStepMillis := 7, step := 13, ringToneChoice := 2 } }
        3 500).notify =
      { active := true, lastStepMillis := 500, step := 0, ringToneChoice := 3 } :=
  ⟨by decide,
   c9_retrigger_restarts
     { baseSys with
       notify := { active := true, lastStepMillis := 7, step := 13, ringToneChoice := 2 } }
     3 500 (by decide)⟩

/-! ### C4: acknowledging during a reminder pulse (code bug) -/

/-- A system in the `Pulsing` reminder state just after the unacknowledged
flag was cleared by an acknowledge event: the LED is high, the pulse-end
time has already passed. -/
def sysC4 : Sys :=
  { baseSys with newMessagePending := false, reminderPulseActive := true,
                 reminderPulseEndMillis := 1050, led := true }

/-- C4 (code bug evidence): the claim says that after the unacknowledged
flag is cleared, the next reminder tick forces the LED low and returns the
machine to `Quiet`.  In the `Pulsing` state the code does neither: with
`newMessagePending = false` and `reminderPulseActive = true` the guard
`!notifyState.active && !reminderPulseActive` is false, so
`handleNewMessageReminder` leaves the LED high and `reminderPulseActive`
set — even long after the pulse-end time (here `now = 2000` vs. pulse end
1050), contradicting the code's own comment "No pending messages -> ensure
LED is off if no notify is active". -/
theorem c4_pulse_ack_stuck :
    (handleNewMessageReminder sysC4 2000).led = true ∧
    (handleNewMessageReminder sysC4 2000).reminderPulseActive = true ∧
    handleNewMessageReminder sysC4 2000 = sysC4 := by
  refine ⟨rfl, rfl, rfl⟩

/-! ### C10: every insert resets the reminder interval timer -/

/-- C10: `storeMessage` raises the unacknowledged flag and sets
`lastReminderBlinkMillis` to the time of the insert, so while a pulse is
not already active, no reminder pulse starts sooner than the full
`REMINDER_INTERVAL_MS` after the most recent message: any reminder tick
within the interval leaves the system unchanged. -/
theorem c10_insert_resets_reminder :
    (∀ (sys : Sys) (addr : Nat) (ricName text : List Char) (now : Nat),
      (storeMessage sys addr ricName text now).lastReminderBlinkMillis = now ∧
      (storeMessage sys addr ricName text now).newMessagePending = true) ∧
    (∀ (sys : Sys) (now : Nat), sys.newMessagePending = true →
      sys.reminderPulseActive = false →
      u32sub now sys.lastReminderBlinkMillis < REMINDER_INTERVAL_MS →
      handleNewMessageReminder sys now = sys) := by
  constructor
  · intro sys addr ricName text now
    exact ⟨rfl, rfl⟩
  · intro sys now hp hpa hint
    unfold handleNewMessageReminder
    rw [hp, hpa]
    simp only [Bool.not_true, Bool.false_eq_true, if_false, if_neg (by omega : ¬ REMINDER_INTERVAL_MS ≤ u32sub now sys.lastReminderBlinkMillis)]
    split <;> rfl

theorem c10_insert_resets_reminder_witness :
    ((storeMessage baseSys 1 [] [] 777).lastReminderBlinkMillis = 777 ∧
      (storeMessage baseSys 1 [] [] 777).newMessagePending = true) ∧
    handleNewMessageReminder { baseSys with newMessagePending := true } 100 =
      { baseSys with newMessagePending := true } :=
  ⟨c10_insert_resets_reminder.1 baseSys 1 [] [] 777,
   c10_insert_resets_reminder.2 { baseSys with newMessagePending := true } 100
     (by decide) (by decide) (by decide)⟩

/-! ### C3: notification pattern length -/

/-- Apply `handleNotify` at times `τ 1, τ 2, ..., τ k` (one call per
scheduler pass that is due). -/
def runNotifyTicks (sys : Sys) (τ : Nat → Nat) : Nat → Sys
  | 0 => sys
  | k + 1 => handleNotify (runNotifyTicks sys τ k) (τ (k + 1))

/-- A due `handleNotify` tick while a pattern step remains: toggle the LED
by step parity, advance the step counter, restart the step timer. -/
theorem handleNotify_step (sys : Sys) (now : Nat)
    (ha : sys.notify.active = true)
    (hdue : ¬ (u32sub now sys.notify.lastStepMillis < NOTIFY_STEP_MS))
    (hstep : sys.notify.step < NOTIFY_LED_STEPS) :
    handleNotify sys now =
      { sys with
        led := decide (sys.notify.step % 2 = 0),
        notify := { sys.notify with lastStepMillis := now, step := sys.notify.step + 1 } } := by
  obtain ⟨ib, pt, ltu, nmp, lrb, rpa, rpe, notif, led⟩ := sys
  obtain ⟨a, l, s, r⟩ := notif
  simp only at ha hdue hstep
  subst ha
  simp only [handleNotify, Bool.not_true, Bool.false_eq_true, if_false, if_neg hdue,
    if_pos hstep]

/-- A due `handleNotify` tick past the last pattern step: deactivate and
force the LED low. -/
theorem handleNotify_finish (sys : Sys) (now : Nat)
    (ha : sys.notify.active = true)
    (hdue : ¬ (u32sub now sys.notify.lastStepMillis < NOTIFY_STEP_MS))
    (hstep : ¬ (sys.notify.step < NOTIFY_LED_STEPS)) :
    handleNotify sys now =
      { sys with
        led := false,
        notify := { sys.notify with lastStepMillis := now, active := false } } := by
  obtain ⟨ib, pt, ltu, nmp, lrb, rpa, rpe, notif, led⟩ := sys
  obtain ⟨a, l, s, r⟩ := notif
  simp only at ha hdue hstep
  subst ha
  simp only [handleNotify, Bool.not_true, Bool.false_eq_true, if_false, if_neg hdue,
    if_neg hstep]

/-- Monotone tick times are bounded by the last one. -/
theorem tickTimes_mono {τ : Nat → Nat} {n : Nat} (hmono : ∀ i, i < n → τ i ≤ τ (i + 1)) :
    ∀ a, a ≤ n → τ a ≤ τ n := by
  induction n with
  | zero =>
    intro a ha
    have h0 : a = 0 := by omega
    rw [h0]
  | succ m ih =>
    intro a ha
    rcases Nat.lt_or_ge a (m + 1) with h | h
    · exact le_trans (ih (fun i hi => hmono i (by omega)) a (by omega)) (hmono m (by omega))
    · have he : a = m + 1 := by omega
      rw [he]

/-- State of the player after `k ≤ NOTIFY_LED_STEPS` due ticks following a
trigger at `τ 0`: still active, step counter `k`, step timer at `τ k`. -/
theorem runNotifyTicks_invariant (sys : Sys) (toneChoice : Nat) (τ : Nat → Nat)
    (hmono : ∀ i, i < 41 → τ i ≤ τ (i + 1))
    (hgap : ∀ i, i < 41 → 100 ≤ τ (i + 1) - τ i)
    (hbound : τ 41 < 4294967296) :
    ∀ k, k ≤ 40 →
      (runNotifyTicks (ringBuzzer sys toneChoice (τ 0)) τ k).notify.active = true ∧
      (runNotifyTicks (ringBuzzer sys toneChoice (τ 0)) τ k).notify.step = k ∧
      (runNotifyTicks (ringBuzzer sys toneChoice (τ 0)) τ k).notify.lastStepMillis = τ k := by
  intro k hk
  induction k with
  | zero => exact ⟨rfl, rfl, rfl⟩
  | succ m ih =>
    obtain ⟨ha, hs, hl⟩ := ih (by omega)
    have hτm : τ m < 4294967296 :=
      lt_of_le_of_lt (tickTimes_mono (n := 41) hmono m (by omega)) hbound
    have hτm1 : τ (m + 1) < 4294967296 :=
      lt_of_le_of_lt (tickTimes_mono (n := 41) hmono (m + 1) (by omega)) hbound
    have hsub : u32sub (τ (m + 1)) (τ m) = τ (m + 1) - τ m :=
      u32sub_of_le (hmono m (by omega)) (by omega) hτm
    have hdue : ¬ (u32sub (τ (m + 1))
        ((runNotifyTicks (ringBuzzer sys toneChoice (τ 0)) τ m).notify.lastStepMillis)
        < NOTIFY_STEP_MS) := by
      rw [hl, hsub]
      have := hgap m (by omega)
      unfold NOTIFY_STEP_MS
      omega
    have hstep : (runNotifyTicks (ringBuzzer sys toneChoice (τ 0)) τ m).notify.step
        < NOTIFY_LED_STEPS := by
      rw [hs]; unfold NOTIFY_LED_STEPS; omega
    simp only [runNotifyTicks,
      handleNotify_step (runNotifyTicks (ringBuzzer sys toneChoice (τ 0)) τ m) (τ (m + 1))
        ha hdue hstep]
    refine ⟨ha, ?_, ?_⟩
    · rw [hs]
    · trivial

/-- C3 (amended): from `Idle`, `ringBuzzer` followed by 41 due notification
ticks — the 40 pattern steps plus the closing tick that the loop needs to
observe `stepIndex = 40` — each at least `NOTIFY_STEP_MS` (100 ms) after
the previous one, returns the player to `Idle` (`active = false`) and
leaves the LED output low. -/
theorem c3_notify_full_pattern (sys : Sys) (toneChoice : Nat) (τ : Nat → Nat)
    (hmono : ∀ i, i < 41 → τ i ≤ τ (i + 1))
    (hgap : ∀ i, i < 41 → 100 ≤ τ (i + 1) - τ i)
    (hbound : τ 41 < 4294967296) :
    (runNotifyTicks (ringBuzzer sys toneChoice (τ 0)) τ 41).notify.active = false ∧
    (runNotifyTicks (ringBuzzer sys toneChoice (τ 0)) τ 41).led = false := by
  obtain ⟨ha, hs, hl⟩ := runNotifyTicks_invariant sys toneChoice τ hmono hgap hbound 40 (by omega)
  have hτ40 : τ 40 < 4294967296 :=
    lt_of_le_of_lt (tickTimes_mono (n := 41) hmono 40 (by omega)) hbound
  have hτ41 : τ 41 < 4294967296 := hbound
  have hmono40 : τ 40 ≤ τ 41 := hmono 40 (by omega)
  have hgap40 : 100 ≤ τ 41 - τ 40 := hgap 40 (by omega)
  have hsub : u32sub (τ 41) (τ 40) = τ 41 - τ 40 :=
    u32sub_of_le hmono40 (by omega) hτ40
  have hdue : ¬ (u32sub (τ 41)
      ((runNotifyTicks (ringBuzzer sys toneChoice (τ 0)) τ 40).notify.lastStepMillis)
      < NOTIFY_STEP_MS) := by
    rw [hl, hsub]
    unfold NOTIFY_STEP_MS
    omega
  have hstep : ¬ ((runNotifyTicks (ringBuzzer sys toneChoice (τ 0)) τ 40).notify.step
      < NOTIFY_LED_STEPS) := by
    rw [hs]; unfold NOTIFY_LED_STEPS; omega
  show (handleNotify (runNotifyTicks (ringBuzzer sys toneChoice (τ 0)) τ 40)
      (τ 41)).notify.active = false ∧
    (handleNotify (runNotifyTicks (ringBuzzer sys toneChoice (τ 0)) τ 40) (τ 41)).led = false
  rw [handleNotify_finish (runNotifyTicks (ringBuzzer sys toneChoice (τ 0)) τ 40) (τ 41)
    ha hdue hstep]
  exact ⟨rfl, rfl⟩

theorem c3_notify_full_pattern_witness :
    (runNotifyTicks (ringBuzzer baseSys 0 0) (fun i => 100 * i) 41).notify.active = false ∧
    (runNotifyTicks (ringBuzzer baseSys 0 0) (fun i => 100 * i) 41).led = false := by
  have h := c3_notify_full_pattern baseSys 0 (fun i => 100 * i)
    (by intro i hi; show 100 * i ≤ 100 * (i + 1); omega)
    (by intro i hi; show 100 ≤ 100 * (i + 1) - 100 * i; omega)
    (by show 100 * 41 < 4294967296; omega)
  exact h

/-- C3 counterexample to the claim as stated: after `trigger()` and exactly
40 due ticks (at 100 ms, 200 ms, ..., 4000 ms, each exactly the step
interval apart) the player is still `Playing` (`active = true`, step
counter 40); only the 41st tick deactivates it. -/
theorem c3_claim_counterexample :
    (runNotifyTicks (ringBuzzer baseSys 0 0) (fun i => 100 * i) 40).notify.active = true ∧
    (runNotifyTicks (ringBuzzer baseSys 0 0) (fun i => 100 * i) 40).notify.step = 40 := by
  decide

/-! ### C6: clock tick catch-up and calendar carry -/

/-- Seconds since midnight of a `PagerTime` value. -/
def timeOfDaySeconds (pt : PagerTime) : Int :=
  pt.hour * 3600 + pt.minute * 60 + pt.second

/-- One `stepSecond` on an in-range time that is not at the last second of
a day: the date is untouched and the time of day advances by exactly one
second (and stays in range). -/
theorem stepSecond_within (pt : PagerTime)
    (hs0 : 0 ≤ pt.second) (hs1 : pt.second < 60)
    (hm0 : 0 ≤ pt.minute) (hm1 : pt.minute < 60)
    (hh0 : 0 ≤ pt.hour) (hh1 : pt.hour < 24)
    (htod : timeOfDaySeconds pt < 86399) :
    (stepSecond pt).year = pt.year ∧ (stepSecond pt).month = pt.month ∧
    (stepSecond pt).day = pt.day ∧ (stepSecond pt).valid = pt.valid ∧
    timeOfDaySeconds (stepSecond pt) = timeOfDaySeconds pt + 1 ∧
    0 ≤ (stepSecond pt).second ∧ (stepSecond pt).second < 60 ∧
    0 ≤ (stepSecond pt).minute ∧ (stepSecond pt).minute < 60 ∧
    0 ≤ (stepSecond pt).hour ∧ (stepSecond pt).hour < 24 := by
  obtain ⟨y, mo, d, h, mi, sec, v⟩ := pt
  simp only [timeOfDaySeconds] at *
  simp only [stepSecond]
  split_ifs <;> simp_all <;> omega

theorem tickLoop_stop (pt : PagerTime) (last now fuel : Nat)
    (h : u32sub now last < 1000) : tickLoop pt last now fuel = (pt, last) := by
  cases fuel <;> simp [tickLoop, h]

theorem tickLoop_go (pt : PagerTime) (last now fuel : Nat)
    (h : 1000 ≤ u32sub now last) :
    tickLoop pt last now (fuel + 1) = tickLoop (stepSecond pt) (u32 (last + 1000)) now fuel := by
  simp [tickLoop, h]

/-- C6: with the clock valid, a single `tickPagerClock` call made 3000 ms
after the last update advances the clock by exactly three one-second steps
(catch-up in one call) and moves the update marker forward by 3000 ms;
for an in-range time not crossing midnight this advances the time of day
by exactly 3 seconds with the date unchanged; and the month-end case
2025-04-30 23:59:59 + 1 s = 2025-05-01 00:00:00 carries correctly. -/
theorem c6_tick_catchup :
    (∀ (pt : PagerTime) (last : Nat), pt.valid = true → last + 3000 < 4294967296 →
      tickPagerClock pt last (last + 3000) =
        (stepSecond (stepSecond (stepSecond pt)), last + 3000)) ∧
    (∀ (pt : PagerTime) (last : Nat), pt.valid = true → last + 3000 < 4294967296 →
      0 ≤ pt.second → pt.second < 60 → 0 ≤ pt.minute → pt.minute < 60 →
      0 ≤ pt.hour → pt.hour < 24 → timeOfDaySeconds pt + 3 < 86400 →
      (tickPagerClock pt last (last + 3000)).1.year = pt.year ∧
      (tickPagerClock pt last (last + 3000)).1.month = pt.month ∧
      (tickPagerClock pt last (last + 3000)).1.day = pt.day ∧
      timeOfDaySeconds (tickPagerClock pt last (last + 3000)).1 =
        timeOfDaySeconds pt + 3) ∧
    tickPagerClock
        { year := 2025, month := 4, day := 30, hour := 23, minute := 59, second := 59,
          valid := true } 0 1000 =
      ({ year := 2025, month := 5, day := 1, hour := 0, minute := 0, second := 0,
         valid := true }, 1000) := by
  have main : ∀ (pt : PagerTime) (last : Nat), pt.valid = true → last + 3000 < 4294967296 →
      tickPagerClock pt last (last + 3000) =
        (stepSecond (stepSecond (stepSecond pt)), last + 3000) := by
    intro pt last hv hb
    unfold tickPagerClock
    rw [hv]
    simp only [Bool.not_true, Bool.false_eq_true, if_false]
    have e1 : u32sub (last + 3000) last = 3000 := by unfold u32sub u32; omega
    rw [show (4294968 : Nat) = 4294967 + 1 from rfl,
      tickLoop_go _ _ _ _ (by rw [e1]; omega),
      u32_of_lt (show last + 1000 < 4294967296 by omega)]
    have e2 : u32sub (last + 3000) (last + 1000) = 2000 := by unfold u32sub u32; omega
    rw [show (4294967 : Nat) = 4294966 + 1 from rfl,
      tickLoop_go _ _ _ _ (by rw [e2]; omega),
      u32_of_lt (show last + 1000 + 1000 < 4294967296 by omega),
      show last + 1000 + 1000 = last + 2000 by omega]
    have e3 : u32sub (last + 3000) (last + 2000) = 1000 := by unfold u32sub u32; omega
    rw [show (4294966 : Nat) = 4294965 + 1 from rfl,
      tickLoop_go _ _ _ _ (by rw [e3]),
      u32_of_lt (show last + 2000 + 1000 < 4294967296 by omega),
      show last + 2000 + 1000 = last + 3000 by omega]
    have e4 : u32sub (last + 3000) (last + 3000) = 0 := by unfold u32sub u32; omega
    rw [tickLoop_stop _ _ _ _ (by rw [e4]; omega)]
  refine ⟨main, ?_, ?_⟩
  · intro pt last hv hb hs0 hs1 hm0 hm1 hh0 hh1 htod
    rw [main pt last hv hb]
    obtain ⟨e1y, e1mo, e1d, e1v, e1tod, f1s0, f1s1, f1m0, f1m1, f1h0, f1h1⟩ :=
      stepSecond_within pt hs0 hs1 hm0 hm1 hh0 hh1 (by omega)
    obtain ⟨e2y, e2mo, e2d, e2v, e2tod, f2s0, f2s1, f2m0, f2m1, f2h0, f2h1⟩ :=
      stepSecond_within (stepSecond pt) f1s0 f1s1 f1m0 f1m1 f1h0 f1h1 (by omega)
    obtain ⟨e3y, e3mo, e3d, e3v, e3tod, _, _, _, _, _, _⟩ :=
      stepSecond_within (stepSecond (stepSecond pt)) f2s0 f2s1 f2m0 f2m1 f2h0 f2h1 (by omega)
    refine ⟨?_, ?_, ?_, ?_⟩
    · rw [e3y, e2y, e1y]
    · rw [e3mo, e2mo, e1mo]
    · rw [e3d, e2d, e1d]
    · rw [e3tod, e2tod, e1tod]; omega
  · decide

/-- Concrete time used to instantiate the C6 witness. -/
def sampleTime : PagerTime :=
  { year := 2025, month := 12, day := 3, hour := 20, minute := 6, second := 0, valid := true }

theorem c6_tick_catchup_witness :
    tickPagerClock sampleTime 5000 (5000 + 3000) =
      (stepSecond (stepSecond (stepSecond sampleTime)), 5000 + 3000) ∧
    timeOfDaySeconds (tickPagerClock sampleTime 5000 (5000 + 3000)).1 =
      timeOfDaySeconds sampleTime + 3 :=
  ⟨c6_tick_catchup.1 sampleTime 5000 (by decide) (by decide),
   (c6_tick_catchup.2.1 sampleTime 5000 (by decide) (by decide) (by decide) (by decide)
      (by decide) (by decide) (by decide) (by decide) (by decide)).2.2.2⟩

/-! ### C2: insert sequences, capacity and overwrite-oldest -/

/-- Ring content as a function of the raw components (`ringList` factored
through them). -/
def ringOf (inb : List PageMessage) (wi c : Nat) : List PageMessage :=
  (List.range c).map (fun j => inb.getD ((wi + (64 - c) + j) % 64) defaultMsg)

theorem ringList_eq_ringOf (st : InboxSt) :
    ringList st = ringOf st.inbox st.inboxWriteIndex st.inboxCount := rfl

/-- Effect of one ring-buffer push (the slot write + cursor advance +
conditional count bump shared by `storeMessage` and `restorePushMessage`)
on the logical content: the new record is appended, and when the buffer was
full the oldest record falls off the front. -/
theorem ringOf_push (inb : List PageMessage) (wi c : Nat) (msg : PageMessage)
    (hlen : inb.length = 64) (hwi : wi < 64) (hc : c ≤ 64) :
    ringOf (inb.set wi msg) ((wi + 1) % 64) (if c < 64 then c + 1 else c) =
      (if c = 64 then (ringOf inb wi c).drop 1 else ringOf inb wi c) ++ [msg] := by
  rcases Nat.lt_or_ge c 64 with hlt | hge
  · rw [if_pos hlt, if_neg (by omega)]
    apply List.ext_getElem
    · simp [ringOf]
    · intro i h1 h2
      simp only [ringOf, List.getElem_map, List.getElem_range,
        List.length_map, List.length_range] at h1 ⊢
      rcases Nat.lt_or_ge i c with hic | hic
      · rw [List.getElem_append_left (by simp [ringOf]; omega)]
        simp only [ringOf, List.getElem_map, List.getElem_range]
        have hidx : ((wi + 1) % 64 + (64 - (c + 1)) + i) % 64 = (wi + (64 - c) + i) % 64 := by
          omega
        rw [hidx]
        apply getD_set_ne
        omega
      · have hie : i = c := by omega
        rw [List.getElem_append_right
          (by simp only [ringOf, List.length_map, List.length_range]; omega)]
        have hidx : ((wi + 1) % 64 + (64 - (c + 1)) + i) % 64 = wi := by omega
        rw [hidx]
        rw [getD_set_self _ _ _ _ (by omega)]
        simp [ringOf, hie]
  · have hce : c = 64 := by omega
    subst hce
    rw [if_neg (by omega), if_pos rfl]
    apply List.ext_getElem
    · simp [ringOf]
    · intro i h1 h2
      simp only [ringOf, List.getElem_map, List.getElem_range,
        List.length_map, List.length_range] at h1 ⊢
      rcases Nat.lt_or_ge i 63 with hic | hic
      · rw [List.getElem_append_left (by simp [ringOf]; omega)]
        rw [List.getElem_drop]
        simp only [ringOf, List.getElem_map, List.getElem_range]
        have hidx : ((wi + 1) % 64 + (64 - 64) + i) % 64 = (wi + (64 - 64) + (1 + i)) % 64 := by
          omega
        rw [hidx]
        apply getD_set_ne
        omega
      · have hie : i = 63 := by omega
        rw [List.getElem_append_right
          (by simp only [ringOf, List.length_map, List.length_range, List.length_drop]; omega)]
        have hidx : ((wi + 1) % 64 + (64 - 64) + i) % 64 = wi := by omega
        rw [hidx]
        rw [getD_set_self _ _ _ _ (by omega)]
        simp [ringOf, hie]

/-- One received-message event: `(addr, ricName, text, millis)`. -/
abbrev InsertInput := Nat × List Char × List Char × Nat

/-- The record `storeMessage` writes for an event (timestamped with the
current `pagerTime`, or a zeroed invalid time when the clock is unset). -/
def storedRecord (pt : PagerTime) (inp : InsertInput) : PageMessage :=
  { addr := inp.1, ricName := inp.2.1, text := inp.2.2.1,
    time := if pt.valid then pt else zeroTimeInvalid, valid := true }

/-- A sequence of `storeMessage` calls. -/
def insertAll (sys : Sys) : List InsertInput → Sys
  | [] => sys
  | inp :: rest => insertAll (storeMessage sys inp.1 inp.2.1 inp.2.2.1 inp.2.2.2) rest

theorem drop_succ_append {α : Type} (l M : List α) (k : Nat) (h : l ≠ []) :
    (l ++ M).drop (k + 1) = (l.drop 1 ++ M).drop k := by
  cases l with
  | nil => exact absurd rfl h
  | cons a t => simp

/-- Effect of one `storeMessage` on the logical ring content: the new
record is appended; when the buffer is full the oldest record falls off. -/
theorem storeMessage_ring (sys : Sys) (a : Nat) (r t : List Char) (now : Nat)
    (hlen : sys.ib.inbox.length = 64) (hwi : sys.ib.inboxWriteIndex < 64)
    (hc : sys.ib.inboxCount ≤ 64) :
    (storeMessage sys a r t now).ib.inbox.length = 64 ∧
    (storeMessage sys a r t now).ib.inboxWriteIndex < 64 ∧
    (storeMessage sys a r t now).ib.inboxCount ≤ 64 ∧
    (storeMessage sys a r t now).pagerTime = sys.pagerTime ∧
    ringList (storeMessage sys a r t now).ib =
      (if sys.ib.inboxCount = 64 then (ringList sys.ib).drop 1 else ringList sys.ib) ++
        [storedRecord sys.pagerTime (a, r, t, now)] := by
  obtain ⟨ib, pt, ltu, nmp, lrb, rpa, rpe, notif, led⟩ := sys
  obtain ⟨inb, c, wi, tot, cur⟩ := ib
  simp only at hlen hwi hc
  refine ⟨?_, ?_, ?_, ?_, ?_⟩
  · simp only [storeMessage]
    split <;> simp [hlen]
  · simp only [storeMessage]
    split <;> exact Nat.mod_lt _ (by omega)
  · simp only [storeMessage]
    split <;> simp <;> omega
  · simp [storeMessage]
  · have key := ringOf_push inb wi c (storedRecord pt (a, r, t, now)) hlen hwi hc
    simp only [storeMessage, ringList_eq_ringOf]
    rcases Nat.lt_or_ge c 64 with hlt | hge
    · rw [if_pos hlt] at key ⊢
      rw [if_neg (by omega : ¬ c = 64)] at key ⊢
      exact key
    · have hce : c = 64 := by omega
      subst hce
      rw [if_neg (by omega : ¬ (64 : Nat) < 64)] at key ⊢
      rw [if_pos rfl] at key ⊢
      exact key

/-- Ring-content characterization of an insert sequence: the store holds
the suffix of all inserted records that fits in 64 slots, appended to
whatever was there before (with the front dropped on overflow). -/
theorem insertAll_spec : ∀ (inputs : List InsertInput) (sys : Sys),
    sys.ib.inbox.length = 64 → sys.ib.inboxWriteIndex < 64 → sys.ib.inboxCount ≤ 64 →
    (insertAll sys inputs).ib.inbox.length = 64 ∧
    (insertAll sys inputs).ib.inboxWriteIndex < 64 ∧
    (insertAll sys inputs).ib.inboxCount ≤ 64 ∧
    (insertAll sys inputs).pagerTime = sys.pagerTime ∧
    ringList (insertAll sys inputs).ib =
      (ringList sys.ib ++ inputs.map (storedRecord sys.pagerTime)).drop
        (sys.ib.inboxCount + inputs.length - 64)
  | [], sys => by
    intro hlen hwi hc
    have hz : sys.ib.inboxCount + ([] : List InsertInput).length - 64 = 0 := by
      simp; omega
    rw [hz]
    simp only [insertAll, List.map_nil, List.append_nil, List.drop_zero]
    exact ⟨hlen, hwi, hc, trivial, trivial⟩
  | inp :: rest, sys => by
    intro hlen hwi hc
    obtain ⟨a, r, t, now⟩ := inp
    obtain ⟨l1, w1, c1, p1, ring1⟩ := storeMessage_ring sys a r t now hlen hwi hc
    have ih := insertAll_spec rest (storeMessage sys a r t now) l1 w1 c1
    obtain ⟨l2, w2, c2, p2, ring2⟩ := ih
    have step : insertAll sys ((a, r, t, now) :: rest) =
        insertAll (storeMessage sys a r t now) rest := rfl
    rw [step]
    refine ⟨l2, w2, c2, by rw [p2, p1], ?_⟩
    rw [ring2, ring1, p1]
    have hcount1 : (storeMessage sys a r t now).ib.inboxCount =
        if sys.ib.inboxCount < 64 then sys.ib.inboxCount + 1 else sys.ib.inboxCount := by
      have := ringList_length (storeMessage sys a r t now).ib
      rw [ring1] at this
      have hl0 := ringList_length sys.ib
      rcases Nat.lt_or_ge sys.ib.inboxCount 64 with hlt | hge
      · rw [if_pos hlt]
        rw [if_neg (by omega)] at this
        simp at this
        omega
      · have hce : sys.ib.inboxCount = 64 := by omega
        rw [if_neg (by omega)]
        rw [if_pos hce] at this
        simp at this
        omega
    rw [hcount1]
    rcases Nat.lt_or_ge sys.ib.inboxCount 64 with hlt | hge
    · rw [if_pos hlt, if_neg (by omega)]
      rw [List.append_assoc, List.singleton_append]
      have hidx : sys.ib.inboxCount + 1 + rest.length - 64 =
          sys.ib.inboxCount + (rest.length + 1) - 64 := by omega
      rw [hidx]
      simp [List.map_cons]
    · have hce : sys.ib.inboxCount = 64 := by omega
      rw [if_neg (by omega), if_pos hce]
      have hne : ringList sys.ib ≠ [] := by
        have := ringList_length sys.ib
        intro hnil
        rw [hnil] at this
        simp at this
        omega
      have hidx : sys.ib.inboxCount + (((a, r, t, now) : InsertInput) :: rest).length - 64 =
          (sys.ib.inboxCount + rest.length - 64) + 1 := by
        simp; omega
      rw [hidx, drop_succ_append _ _ _ hne]
      rw [List.append_assoc, List.singleton_append]
      have hidx2 : sys.ib.inboxCount + rest.length - 64 = rest.length := by omega
      rw [hidx2]
      simp [List.map_cons]

/-- C2: for every sequence of `k` `storeMessage` inserts on a freshly reset
store, `inboxCount` (= `count()`) is `min k 64`; the ring content is
exactly the last-64 suffix of the inserted records in order, so for
`k > 64` the store holds records `k-64 .. k-1` and the oldest original
records have been overwritten (each overwrite having replaced the oldest
live slot while `inboxCount` stayed at 64). -/
theorem c2_insert_count_ring (sys : Sys) (inputs : List InsertInput)
    (hlen : sys.ib.inbox.length = 64) :
    (insertAll { sys with ib := resetInboxMemory sys.ib } inputs).ib.inboxCount =
      min inputs.length 64 ∧
    ringList (insertAll { sys with ib := resetInboxMemory sys.ib } inputs).ib =
      (inputs.map (storedRecord sys.pagerTime)).drop (inputs.length - 64) := by
  have hr : ({ sys with ib := resetInboxMemory sys.ib } : Sys).ib.inbox.length = 64 := by
    simp [resetInboxMemory, hlen]
  have hw : ({ sys with ib := resetInboxMemory sys.ib } : Sys).ib.inboxWriteIndex < 64 := by
    simp [resetInboxMemory]
  have hc : ({ sys with ib := resetInboxMemory sys.ib } : Sys).ib.inboxCount ≤ 64 := by
    simp [resetInboxMemory]
  obtain ⟨l, w, c, p, ring⟩ :=
    insertAll_spec inputs { sys with ib := resetInboxMemory sys.ib } hr hw hc
  have hre : ringList ({ sys with ib := resetInboxMemory sys.ib } : Sys).ib = [] := by
    simp [ringList, resetInboxMemory]
  rw [hre] at ring
  simp only [List.nil_append] at ring
  have hcnt0 : ({ sys with ib := resetInboxMemory sys.ib } : Sys).ib.inboxCount = 0 := rfl
  rw [hcnt0] at ring
  simp only [Nat.zero_add] at ring
  constructor
  · have hl := ringList_length (insertAll { sys with ib := resetInboxMemory sys.ib } inputs).ib
    rw [ring] at hl
    simp only [List.length_drop, List.length_map] at hl
    omega
  · exact ring

theorem c2_insert_count_ring_witness :
    (insertAll { baseSys with ib := resetInboxMemory baseSys.ib }
        ([(7, [], [], 10)] : List InsertInput)).ib.inboxCount =
      min ([(7, [], [], 10)] : List InsertInput).length 64 ∧
    ringList (insertAll { baseSys with ib := resetInboxMemory baseSys.ib }
        ([(7, [], [], 10)] : List InsertInput)).ib =
      (([(7, [], [], 10)] : List InsertInput).map (storedRecord baseSys.pagerTime)).drop
        (([(7, [], [], 10)] : List InsertInput).length - 64) :=
  c2_insert_count_ring baseSys ([(7, [], [], 10)] : List InsertInput) (by decide)

/-! ### C8: `inboxShowNext` then `inboxShowPrev` is the identity on the
selection -/

/-- The forward scan finds the nearest valid slot strictly ahead: if the
`k`-th successor (cyclically) is the first valid one and `k ≤ fuel`, the
scan returns it. -/
theorem scanFwd_spec : ∀ (fuel : Nat) (st : InboxSt) (start k : Nat), 1 ≤ k → k ≤ fuel →
    (st.inbox.getD ((start + k) % 64) defaultMsg).valid = true →
    (∀ j, 1 ≤ j → j < k → (st.inbox.getD ((start + j) % 64) defaultMsg).valid = false) →
    scanFwd st start fuel = some ((start + k) % 64)
  | 0, _, _, _ => by omega
  | fuel + 1, st, start, k => by
    intro hk1 hkf hv hinv
    rcases Nat.eq_or_lt_of_le hk1 with h1 | h1
    · have hidx : (start + 1) % 64 = (start + k) % 64 := by omega
      simp only [scanFwd, hidx, hv, if_true]
    · have hninv : (st.inbox.getD ((start + 1) % 64) defaultMsg).valid = false :=
        hinv 1 (by omega) (by omega)
      simp only [scanFwd, hninv, Bool.false_eq_true, if_false]
      have hrec := scanFwd_spec fuel st ((start + 1) % 64) (k - 1) (by omega) (by omega)
        (by rw [show ((start + 1) % 64 + (k - 1)) % 64 = (start + k) % 64 by omega]; exact hv)
        (by
          intro j hj1 hj2
          rw [show ((start + 1) % 64 + j) % 64 = (start + (j + 1)) % 64 by omega]
          exact hinv (j + 1) (by omega) (by omega))
      rw [hrec]
      rw [show ((start + 1) % 64 + (k - 1)) % 64 = (start + k) % 64 by omega]

/-- The backward scan finds the nearest valid slot strictly behind: after
`j` backward steps the cursor sits at `(start + 63·j) % 64`. -/
theorem scanBwd_spec : ∀ (fuel : Nat) (st : InboxSt) (start k : Nat), 1 ≤ k → k ≤ fuel →
    (st.inbox.getD ((start + 63 * k) % 64) defaultMsg).valid = true →
    (∀ j, 1 ≤ j → j < k → (st.inbox.getD ((start + 63 * j) % 64) defaultMsg).valid = false) →
    scanBwd st start fuel = some ((start + 63 * k) % 64)
  | 0, _, _, _ => by omega
  | fuel + 1, st, start, k => by
    intro hk1 hkf hv hinv
    rcases Nat.eq_or_lt_of_le hk1 with h1 | h1
    · have hidx : (start + 64 - 1) % 64 = (start + 63 * k) % 64 := by omega
      simp only [scanBwd, hidx, hv, if_true]
    · have hninv : (st.inbox.getD ((start + 64 - 1) % 64) defaultMsg).valid = false := by
        rw [show (start + 64 - 1) % 64 = (start + 63 * 1) % 64 by omega]
        exact hinv 1 (by omega) (by omega)
      simp only [scanBwd, hninv, Bool.false_eq_true, if_false]
      have hrec := scanBwd_spec fuel st ((start + 64 - 1) % 64) (k - 1) (by omega) (by omega)
        (by rw [show ((start + 64 - 1) % 64 + 63 * (k - 1)) % 64 = (start + 63 * k) % 64 by
              omega]
            exact hv)
        (by
          intro j hj1 hj2
          rw [show ((start + 64 - 1) % 64 + 63 * j) % 64 = (start + 63 * (j + 1)) % 64 by omega]
          exact hinv (j + 1) (by omega) (by omega))
      rw [hrec]
      rw [show ((start + 64 - 1) % 64 + 63 * (k - 1)) % 64 = (start + 63 * k) % 64 by omega]

/-- `displayInbox` leaves a valid in-range selection untouched. -/
theorem repair_of_valid (st : InboxSt) (h1 : st.inboxCurrent < 64)
    (h2 : (st.inbox.getD st.inboxCurrent defaultMsg).valid = true) :
    displayInboxRepair st = st := by
  unfold displayInboxRepair
  split_ifs with hz hc
  · rfl
  · rcases hc with hc | hc
    · omega
    · rw [h2] at hc; exact absurd hc (by simp)
  · rfl

/-- C8: for every store with a valid current selection (and a nonzero
count, so browsing is enabled), `inboxShowNext` followed by
`inboxShowPrev` returns the selection to the original slot — including the
single-record case, where both scans wrap fully around the ring. -/
theorem c8_next_prev_id (st : InboxSt)
    (_hlen : st.inbox.length = 64) (hcur : st.inboxCurrent < 64)
    (hval : (st.inbox.getD st.inboxCurrent defaultMsg).valid = true)
    (hcnt : 0 < st.inboxCount) :
    (inboxShowPrev (inboxShowNext st)).inboxCurrent = st.inboxCurrent := by
  set c := st.inboxCurrent with hc
  have hP : ∃ k, 1 ≤ k ∧ (st.inbox.getD ((c + k) % 64) defaultMsg).valid = true := by
    refine ⟨64, by omega, ?_⟩
    rw [show (c + 64) % 64 = c by omega]
    exact hval
  classical
  let k0 := Nat.find hP
  have hk0 : 1 ≤ k0 ∧ (st.inbox.getD ((c + k0) % 64) defaultMsg).valid = true :=
    Nat.find_spec hP
  have hk0le : k0 ≤ 64 := Nat.find_le ⟨by omega, by rw [show (c + 64) % 64 = c by omega]; exact hval⟩
  have hmin : ∀ m, 1 ≤ m → m < k0 →
      (st.inbox.getD ((c + m) % 64) defaultMsg).valid = false := by
    intro m hm1 hm2
    have := Nat.find_min hP hm2
    simp only [not_and] at this
    exact Bool.not_eq_true _ |>.mp (this hm1)
  have hscanF : scanFwd st c 64 = some ((c + k0) % 64) :=
    scanFwd_spec 64 st c k0 hk0.1 hk0le hk0.2 hmin
  have hnext : inboxShowNext st = { st with inboxCurrent := (c + k0) % 64 } := by
    unfold inboxShowNext
    rw [if_neg (by omega), ← hc, hscanF]
    exact repair_of_valid _ (by simp [Nat.mod_lt]) (by simpa using hk0.2)
  rw [hnext]
  set st' : InboxSt := { st with inboxCurrent := (c + k0) % 64 } with hst'
  have hscanB : scanBwd st' ((c + k0) % 64) 64 = some c := by
    have := scanBwd_spec 64 st' ((c + k0) % 64) k0 hk0.1 hk0le
      (by
        rw [show (((c + k0) % 64) + 63 * k0) % 64 = c by omega]
        simpa [hst'] using hval)
      (by
        intro j hj1 hj2
        rw [show (((c + k0) % 64) + 63 * j) % 64 = (c + (k0 - j)) % 64 by omega]
        simpa [hst'] using hmin (k0 - j) (by omega) (by omega))
    rw [show (((c + k0) % 64) + 63 * k0) % 64 = c by omega] at this
    exact this
  unfold inboxShowPrev
  rw [if_neg (by simp [hst']; omega)]
  have hcur' : st'.inboxCurrent = (c + k0) % 64 := rfl
  rw [hcur', hscanB]
  show (displayInboxRepair { st' with inboxCurrent := c }).inboxCurrent = c
  rw [repair_of_valid { st' with inboxCurrent := c } hcur hval]

/-- A one-record store (the single-record case: both scans wrap fully
around the ring). -/
def oneMsgInbox : InboxSt :=
  restorePushMessage emptyInbox
    { addr := 42, ricName := [], text := [], time := zeroTimeInvalid, valid := true }

theorem c8_next_prev_id_witness :
    (inboxShowPrev (inboxShowNext oneMsgInbox)).inboxCurrent = oneMsgInbox.inboxCurrent :=
  c8_next_prev_id oneMsgInbox (by decide) (by decide) (by decide) (by decide)

/-! ### C5: the status bar's logical position -/

/-- The `drawClockBar` scan counts valid slots in array order and stops at
`inboxCurrent`: its result over a list that first reaches `inboxCurrent`
after `l₁` is the number of valid slots in `l₁` plus one. -/
theorem logicalPosGo_spec (st : InboxSt) :
    ∀ (l₁ l₂ : List Nat) (seen : Nat), st.inboxCurrent ∉ l₁ →
      (st.inbox.getD st.inboxCurrent defaultMsg).valid = true →
      logicalPosGo st (l₁ ++ st.inboxCurrent :: l₂) seen =
        seen + l₁.countP (fun i => (st.inbox.getD i defaultMsg).valid) + 1
  | [], l₂, seen => by
    intro _ hv
    simp only [List.nil_append, logicalPosGo, hv, if_true, List.countP_nil]
  | i :: l₁, l₂, seen => by
    intro hmem hv
    have hne : i ≠ st.inboxCurrent := by
      intro he; exact hmem (by rw [he]; exact List.mem_cons_self _ _)
    simp only [List.cons_append, logicalPosGo]
    rcases hvi : (st.inbox.getD i defaultMsg).valid with hf | ht
    · simp only [Bool.false_eq_true, if_false, List.append_eq]
      rw [logicalPosGo_spec st l₁ l₂ seen (by intro hm; exact hmem (List.mem_cons_of_mem _ hm)) hv]
      rw [List.countP_cons_of_neg _ _ (by simpa using hvi)]
    · simp only [if_true, if_neg hne, List.append_eq]
      rw [logicalPosGo_spec st l₁ l₂ (seen + 1)
        (by intro hm; exact hmem (List.mem_cons_of_mem _ hm)) hv]
      rw [List.countP_cons_of_pos _ _ (by simpa using hvi)]
      omega

/-- `range n` decomposes at any member. -/
theorem range_split_ex : ∀ (n m : Nat), m < n →
    ∃ tail, List.range n = List.range m ++ m :: tail
  | 0, m => by omega
  | n + 1, m => by
    intro hm
    rcases Nat.lt_or_ge m n with h | h
    · obtain ⟨tail, ht⟩ := range_split_ex n m h
      refine ⟨tail ++ [n], ?_⟩
      rw [List.range_succ, ht, List.append_assoc, List.cons_append]
    · have he : m = n := by omega
      subst he
      exact ⟨[], by rw [List.range_succ]⟩

/-- Counting a contiguous index band in `range n`. -/
theorem countP_range_band (p : Nat → Bool) (a b : Nat) :
    ∀ n, (∀ i, i < n → p i = decide (a ≤ i ∧ i < b)) →
      (List.range n).countP p = min n b - min n a
  | 0, _ => by simp
  | n + 1, hp => by
    rw [List.range_succ, List.countP_append,
      countP_range_band p a b n (fun i hi => hp i (by omega))]
    have hn := hp n (by omega)
    simp only [List.countP_cons, List.countP_nil]
    rw [hn]
    rcases Nat.decEq 0 0 with _ | _ <;>
      · by_cases hab : a ≤ n ∧ n < b
        · rw [decide_eq_true hab]; simp; omega
        · rw [decide_eq_false hab]; simp; omega

/-- Under `WF` with an unwrapped buffer (`liveCount ≤ writeCursor`) the
valid slots are exactly the band `writeCursor - liveCount ≤ s <
writeCursor`. -/
theorem WF_valid_band (st : InboxSt) (hwf : WF st)
    (hnw : st.inboxCount ≤ st.inboxWriteIndex) :
    ∀ s, s < 64 →
      (st.inbox.getD s defaultMsg).valid =
        decide (st.inboxWriteIndex - st.inboxCount ≤ s ∧ s < st.inboxWriteIndex) := by
  obtain ⟨hlen, hc, hwi, hslots⟩ := hwf
  intro s hs
  have hi := hslots ((s + 64 - st.inboxWriteIndex) % 64) (by omega)
  rw [show (st.inboxWriteIndex + (s + 64 - st.inboxWriteIndex) % 64) % 64 = s by omega] at hi
  by_cases hband : st.inboxWriteIndex - st.inboxCount ≤ s ∧ s < st.inboxWriteIndex
  · rw [decide_eq_true hband]
    exact hi.mpr (by omega)
  · rw [decide_eq_false hband]
    rcases hb : (st.inbox.getD s defaultMsg).valid with h | h
    · rfl
    · exact absurd (hi.mp hb) (by omega)

/-- C5 (amended): for a well-formed store whose ring has not wrapped
(`liveCount ≤ writeCursor`), the "x/n" numerator computed by
`drawClockBar` for a valid selected slot equals its 1-based rank among the
valid slots in ring order from the oldest.  (When the ring has wrapped the
scan runs in array order, so the numbering restarts at slot 0 — see the
counterexample.) -/
theorem c5_logical_position (st : InboxSt) (hwf : WF st)
    (hnw : st.inboxCount ≤ st.inboxWriteIndex) (j : Nat) (hj : j < st.inboxCount)
    (hcur : st.inboxCurrent = (st.inboxWriteIndex + (64 - st.inboxCount) + j) % 64) :
    logicalPosOf st = j + 1 := by
  have hwi : st.inboxWriteIndex < 64 := hwf.2.2.1
  have hc : st.inboxCount ≤ 64 := hwf.2.1
  have hce : st.inboxCurrent = st.inboxWriteIndex - st.inboxCount + j := by
    rw [hcur]; omega
  have hcur64 : st.inboxCurrent < 64 := by omega
  have hband := WF_valid_band st hwf hnw
  have hvalcur : (st.inbox.getD st.inboxCurrent defaultMsg).valid = true := by
    rw [hband st.inboxCurrent hcur64]
    exact decide_eq_true (by omega)
  obtain ⟨tail, htail⟩ := range_split_ex 64 st.inboxCurrent hcur64
  unfold logicalPosOf
  rw [htail, logicalPosGo_spec st (List.range st.inboxCurrent) tail 0 (by simp) hvalcur]
  rw [countP_range_band _ (st.inboxWriteIndex - st.inboxCount) st.inboxWriteIndex _
    (fun i hi => hband i (by omega))]
  omega

/-- A store with two records in slots 0 and 1 (not wrapped), selection on
slot 1. -/
def twoMsgInbox : InboxSt :=
  { restorePushMessage
      (restorePushMessage emptyInbox
        { addr := 1, ricName := [], text := [], time := zeroTimeInvalid, valid := true })
      { addr := 2, ricName := [], text := [], time := zeroTimeInvalid, valid := true } with
    inboxCurrent := 1 }

theorem c5_logical_position_witness : logicalPosOf twoMsgInbox = 1 + 1 :=
  c5_logical_position twoMsgInbox (by decide) (by decide) 1 (by decide) (by decide)

/-- A store that has wrapped: 65 records pushed through the ring, so the
oldest live record sits in slot 1 and the newest in slot 0. -/
def wrappedInbox : InboxSt :=
  ((List.range 65).map (fun i =>
    ({ addr := i, ricName := [], text := [], time := zeroTimeInvalid, valid := true } :
      PageMessage))).foldl restorePushMessage emptyInbox

/-- C5 counterexample to the claim as stated: in the wrapped store the
selected slot 0 holds the newest record — rank 64 in ring order from the
oldest (`j = 63`) — but the array-order scan of `drawClockBar` reports
position 1. -/
theorem c5_claim_counterexample :
    WF wrappedInbox ∧
    wrappedInbox.inboxCurrent =
      (wrappedInbox.inboxWriteIndex + (64 - wrappedInbox.inboxCount) + 63) % 64 ∧
    63 < wrappedInbox.inboxCount ∧
    logicalPosOf wrappedInbox ≠ 63 + 1 := by
  decide

/-! ### C7: malformed persisted lines are skipped -/

theorem firstIdx_eq_none {α : Type} [DecidableEq α] (x : α) :
    ∀ l : List α, x ∉ l → firstIdx x l = none
  | [], _ => rfl
  | y :: ys, h => by
    have hxy : y ≠ x := fun he => h (by rw [he]; exact List.mem_cons_self _ _)
    simp only [firstIdx, if_neg hxy,
      firstIdx_eq_none x ys (fun hm => h (List.mem_cons_of_mem _ hm)), Option.map_none']

theorem count_after_firstIdx {α : Type} [DecidableEq α] (x : α) :
    ∀ (l : List α) (i : Nat), firstIdx x l = some i →
      (l.drop (i + 1)).count x + 1 = l.count x
  | [], i => by intro h; simp [firstIdx] at h
  | y :: ys, i => by
    intro h
    by_cases hxy : y = x
    · simp only [firstIdx, if_pos hxy, Option.some.injEq] at h
      subst h
      simp [hxy, List.count_cons]
    · simp only [firstIdx, if_neg hxy] at h
      rcases hf : firstIdx x ys with _ | n
      · rw [hf] at h; simp at h
      · rw [hf] at h
        simp only [Option.map_some', Option.some.injEq] at h
        subst h
        have := count_after_firstIdx x ys n hf
        simp only [List.drop_succ_cons]
        rw [List.count_cons]
        simp [hxy]
        omega

theorem idxFrom_some_elim (l : List Char) (c : Char) (s i : Nat)
    (h : idxFrom l c s = some i) :
    ∃ n, firstIdx c (l.drop s) = some n ∧ i = n + s := by
  unfold idxFrom at h
  rcases hf : firstIdx c (l.drop s) with _ | n
  · rw [hf] at h; simp at h
  · rw [hf] at h
    simp only [Option.map_some', Option.some.injEq] at h
    exact ⟨n, rfl, h.symm⟩

theorem count_dropWhile_isSpace (x : Char) (hx : isSpaceCh x = false) (l : List Char) :
    (l.dropWhile isSpaceCh).count x = l.count x := by
  conv_rhs => rw [← List.takeWhile_append_dropWhile (p := isSpaceCh) (l := l)]
  rw [List.count_append]
  have hz : (l.takeWhile isSpaceCh).count x = 0 := by
    rw [List.count_eq_zero]
    intro hmem
    have := List.mem_takeWhile_imp hmem
    rw [hx] at this
    exact absurd this (by simp)
  omega

/-- `trim` cannot change the number of delimiter occurrences. -/
theorem count_trimStr (x : Char) (hx : isSpaceCh x = false) (l : List Char) :
    (trimStr l).count x = l.count x := by
  unfold trimStr
  rw [List.count_reverse, count_dropWhile_isSpace x hx, List.count_reverse,
    count_dropWhile_isSpace x hx]

/-- Any line carrying fewer than three delimiters is skipped by the loader
(`parseLine` returns `none`). -/
theorem parseLine_none_of_few_bars (l : List Char) (h : l.count '|' < 3) :
    parseLine l = none := by
  have hcnt : (trimStr l).count '|' < 3 := by
    rw [count_trimStr '|' (by decide) l]; exact h
  unfold parseLine
  by_cases hlen : (trimStr l).length = 0
  · simp [hlen]
  · simp only [if_neg hlen]
    rcases h1 : idxFrom (trimStr l) '|' 0 with _ | i1
    · rfl
    · obtain ⟨n1, hf1, hi1⟩ := idxFrom_some_elim _ _ _ _ h1
      rw [List.drop_zero] at hf1
      have hi1' : i1 = n1 := by omega
      subst hi1'
      have hc1 := count_after_firstIdx '|' (trimStr l) i1 hf1
      rcases h2 : idxFrom (trimStr l) '|' (i1 + 1) with _ | i2
      · simp [h2]
      · obtain ⟨n2, hf2, hi2⟩ := idxFrom_some_elim _ _ _ _ h2
        have hc2 := count_after_firstIdx '|' ((trimStr l).drop (i1 + 1)) n2 hf2
        have h3 : idxFrom (trimStr l) '|' (i2 + 1) = none := by
          unfold idxFrom
          rw [show i2 + 1 = (i1 + 1) + (n2 + 1) by omega, ← List.drop_drop]
          rw [firstIdx_eq_none _ _ (by
            rw [← List.count_eq_zero (a := '|')]
            omega)]
          rfl
        simp only [h2, h3]

/-- C7: a line with fewer than three delimiter occurrences is skipped
(`parseLine` = `none`) and loading continues with the next line: loading a
file with one well-formed line and one line with a single delimiter yields
`count() == 1`, with the well-formed record restored. -/
theorem c7_malformed_line_recovery :
    (∀ l : List Char, l.count '|' < 3 → parseLine l = none) ∧
    (loadInboxFromFS emptyInbox ("1234|Alice|-|Hello\nbad|line\n".toList)).inboxCount = 1 ∧
    (ringList (loadInboxFromFS emptyInbox ("1234|Alice|-|Hello\nbad|line\n".toList))).map
      (fun m => m.addr) = [1234] :=
  ⟨parseLine_none_of_few_bars, by decide, by decide⟩

theorem c7_malformed_line_recovery_witness :
    parseLine ("bad|line".toList) = none :=
  c7_malformed_line_recovery.1 ("bad|line".toList) (by decide)

/-! ### C1: persistence round trip.  Decimal printing/parsing lemmas. -/

theorem natToDecimalAux_append : ∀ (n : Nat) (acc : List Char),
    natToDecimalAux n acc = natToDecimalAux n [] ++ acc := by
  intro n
  induction n using Nat.strong_induction_on with
  | _ n ih =>
    intro acc
    by_cases h : n < 10
    · rw [natToDecimalAux, if_pos h]
      conv_rhs => rw [natToDecimalAux]
      rw [if_pos h]
      rfl
    · rw [natToDecimalAux, if_neg h]
      conv_rhs => rw [natToDecimalAux]
      rw [if_neg h]
      rw [ih (n / 10) (Nat.div_lt_self (by omega) (by omega)) (digitChar (n % 10) :: acc),
        ih (n / 10) (Nat.div_lt_self (by omega) (by omega)) (digitChar (n % 10) :: [])]
      simp

/-- `natToDecimal n = natToDecimal (n / 10) ++ [digitChar (n % 10)]` for
`n ≥ 10`. -/
theorem natToDecimal_step (n : Nat) (h : ¬ n < 10) :
    natToDecimal n = natToDecimal (n / 10) ++ [digitChar (n % 10)] := by
  unfold natToDecimal
  rw [natToDecimalAux, if_neg h, natToDecimalAux_append]

theorem natToDecimal_small (n : Nat) (h : n < 10) : natToDecimal n = [digitChar n] := by
  unfold natToDecimal
  rw [natToDecimalAux, if_pos h]

theorem natToDecimal_mem : ∀ (n : Nat), ∀ c ∈ natToDecimal n, ∃ d, d < 10 ∧ c = digitChar d := by
  intro n
  induction n using Nat.strong_induction_on with
  | _ n ih =>
    intro c hc
    by_cases h : n < 10
    · rw [natToDecimal_small n h] at hc
      simp at hc
      exact ⟨n, h, hc⟩
    · rw [natToDecimal_step n h] at hc
      rcases List.mem_append.mp hc with hm | hm
      · exact ih (n / 10) (Nat.div_lt_self (by omega) (by omega)) c hm
      · simp at hm
        exact ⟨n % 10, by omega, hm⟩

theorem natToDecimal_digits (n : Nat) : ∀ c ∈ natToDecimal n, isDigitCh c = true := by
  intro c hc
  obtain ⟨d, hd, rfl⟩ := natToDecimal_mem n c hc
  exact digitChar_isDigit d hd

theorem natToDecimal_ne_nil (n : Nat) : natToDecimal n ≠ [] := by
  by_cases h : n < 10
  · rw [natToDecimal_small n h]; simp
  · rw [natToDecimal_step n h]; simp

theorem digitVal_digitChar : ∀ d < 10, digitVal (digitChar d) = d := by decide

theorem parseDigitsAcc_append (a : Nat) :
    ∀ (l r : List Char), (∀ c ∈ l, isDigitCh c = true) →
      parseDigitsAcc a (l ++ r) = parseDigitsAcc (parseDigitsAcc a l) r := by
  intro l
  induction l generalizing a with
  | nil => intro r _; rfl
  | cons c cs ih =>
    intro r hd
    have hc : isDigitCh c = true := hd c (List.mem_cons_self _ _)
    simp only [List.cons_append, parseDigitsAcc, hc, if_true]
    exact ih _ r (fun x hx => hd x (List.mem_cons_of_mem _ hx))

theorem parse_natToDecimal : ∀ (n : Nat), parseDigitsAcc 0 (natToDecimal n) = n := by
  intro n
  induction n using Nat.strong_induction_on with
  | _ n ih =>
    by_cases h : n < 10
    · rw [natToDecimal_small n h]
      simp only [parseDigitsAcc, digitChar_isDigit n h, if_true,
        digitVal_digitChar n h]
      omega
    · rw [natToDecimal_step n h,
        parseDigitsAcc_append 0 _ _ (natToDecimal_digits (n / 10)),
        ih (n / 10) (Nat.div_lt_self (by omega) (by omega))]
      simp only [parseDigitsAcc, digitChar_isDigit (n % 10) (by omega), if_true,
        digitVal_digitChar (n % 10) (by omega)]
      omega

theorem parseDigitsAcc_zeros : ∀ (k : Nat), parseDigitsAcc 0 (List.replicate k '0') = 0
  | 0 => rfl
  | k + 1 => by
    simp only [List.replicate_succ, parseDigitsAcc]
    rw [if_pos (by decide)]
    simpa using parseDigitsAcc_zeros k

theorem parse_padZeros (w n : Nat) :
    parseDigitsAcc 0 (padZeros w (natToDecimal n)) = n := by
  unfold padZeros
  rw [parseDigitsAcc_append 0 _ _ (by
    intro c hc
    rw [List.eq_of_mem_replicate hc]
    decide)]
  rw [parseDigitsAcc_zeros, parse_natToDecimal]

theorem natToDecimal_length_le : ∀ (k n : Nat), 1 ≤ k → n < 10 ^ k →
    (natToDecimal n).length ≤ k := by
  intro k n
  induction n using Nat.strong_induction_on generalizing k with
  | _ n ih =>
    intro hk hn
    by_cases h : n < 10
    · rw [natToDecimal_small n h]; simpa using hk
    · rw [natToDecimal_step n h]
      have hk2 : 2 ≤ k := by
        rcases Nat.lt_or_ge k 2 with hk1 | hk1
        · exfalso
          have : k = 1 := by omega
          rw [this] at hn
          simp at hn
          omega
        · exact hk1
      have hpow : (10 : Nat) ^ k = 10 ^ (k - 1) * 10 := by
        rw [← pow_succ]
        congr 1
        omega
      have hdiv : n / 10 < 10 ^ (k - 1) := by
        rw [hpow] at hn
        omega
      have := ih (n / 10) (Nat.div_lt_self (by omega) (by omega)) (k := k - 1) (by omega) hdiv
      simp only [List.length_append, List.length_cons, List.length_nil]
      omega

theorem padZeros_length (w : Nat) (s : List Char) (h : s.length ≤ w) :
    (padZeros w s).length = w := by
  simp [padZeros]
  omega

/-! ### C1: character-class and `toInt` lemmas -/

theorem space_not_digit (c : Char) (h : isSpaceCh c = true) : isDigitCh c = false := by
  simp only [isSpaceCh, Bool.or_eq_true, decide_eq_true_eq] at h
  rcases h with ((((h | h) | h) | h) | h) | h <;> subst h <;> decide

theorem digit_not_space (c : Char) (h : isDigitCh c = true) : isSpaceCh c = false := by
  rcases hs : isSpaceCh c with _ | _
  · rfl
  · rw [space_not_digit c hs] at h
    exact absurd h (by simp)

theorem dropWhile_eq_self_of_head {p : Char → Bool} (l : List Char)
    (h : ∀ c, l.head? = some c → p c = false) : l.dropWhile p = l := by
  cases l with
  | nil => rfl
  | cons a t =>
    rw [List.dropWhile_cons_of_neg]
    rw [h a rfl]
    simp

theorem trimStr_eq_self (l : List Char)
    (hh : ∀ c, l.head? = some c → isSpaceCh c = false)
    (hl : ∀ c, l.getLast? = some c → isSpaceCh c = false) : trimStr l = l := by
  unfold trimStr
  rw [dropWhile_eq_self_of_head l hh]
  rw [dropWhile_eq_self_of_head l.reverse
    (by intro c hc; rw [List.head?_reverse] at hc; exact hl c hc)]
  exact List.reverse_reverse l

/-- `String::toInt` on a pure (nonempty) digit string parses its decimal
value, saturated at `LONG_MAX`. -/
theorem strToInt_digits (l : List Char) (hl : l ≠ [])
    (hdig : ∀ c ∈ l, isDigitCh c = true) :
    strToInt l =
      if parseDigitsAcc 0 l > 2147483647 then 2147483647
      else (parseDigitsAcc 0 l : Int) := by
  have hdw : l.dropWhile isSpaceCh = l := by
    cases l with
    | nil => rfl
    | cons a t =>
      exact List.dropWhile_cons_of_neg (by
        rw [digit_not_space a (hdig a (List.mem_cons_self _ _))]
        simp)
  simp only [strToInt, hdw]
  cases l with
  | nil => exact absurd rfl hl
  | cons c r =>
    have hc : isDigitCh c = true := hdig c (List.mem_cons_self _ _)
    have h1 : c ≠ '-' := by intro he; rw [he] at hc; exact absurd hc (by decide)
    have h2 : c ≠ '+' := by intro he; rw [he] at hc; exact absurd hc (by decide)
    split
    · rename_i heq
      rw [List.cons_eq_cons] at heq
      exact absurd heq.1 h1
    · rename_i heq
      rw [List.cons_eq_cons] at heq
      exact absurd heq.1 h2
    · rfl

theorem firstIdx_append_cons {α : Type} [DecidableEq α] (x : α) :
    ∀ (a b : List α), x ∉ a → firstIdx x (a ++ x :: b) = some a.length
  | [], b => by
    intro _
    simp [firstIdx]
  | y :: a, b => by
    intro h
    have hyx : y ≠ x := fun he => h (by rw [he]; exact List.mem_cons_self _ _)
    have ih := firstIdx_append_cons x a b (fun hm => h (List.mem_cons_of_mem _ hm))
    rw [List.cons_append]
    show (if y = x then some 0 else (firstIdx x (a ++ x :: b)).map (fun n => n + 1)) =
      some (y :: a).length
    rw [if_neg hyx, ih]
    simp

/-! ### C1: conditions under which one persisted line parses back exactly -/

/-- Decidable "last character is not whitespace" (vacuously true for the
empty string). -/
def lastNotSpace (l : List Char) : Bool := !(isSpaceCh (l.getLastD '0'))

theorem lastNotSpace_elim (l : List Char) (h : lastNotSpace l = true) :
    ∀ c, l.getLast? = some c → isSpaceCh c = false := by
  intro c hc
  unfold lastNotSpace at h
  rw [List.getLastD_eq_getLast?, hc] at h
  simpa using h

/-- The per-record conditions under which the saved line reparses exactly:
address within `LONG_MAX` (so `toInt` does not saturate), no delimiter or
newline inside the label, the flattened body not ending in whitespace (so
the loader's `trim` is the identity on the line), and timestamp fields
within their printed widths. -/
def GoodMsg (m : PageMessage) : Prop :=
  m.addr ≤ 2147483647 ∧
  '|' ∉ m.ricName ∧ '\n' ∉ m.ricName ∧
  lastNotSpace (flattenText m.text) = true ∧
  (m.time.valid = true →
    0 ≤ m.time.year ∧ m.time.year ≤ 9999 ∧
    0 ≤ m.time.month ∧ m.time.month ≤ 99 ∧
    0 ≤ m.time.day ∧ m.time.day ≤ 99 ∧
    0 ≤ m.time.hour ∧ m.time.hour ≤ 99 ∧
    0 ≤ m.time.minute ∧ m.time.minute ≤ 99 ∧
    0 ≤ m.time.second ∧ m.time.second ≤ 99)

instance (m : PageMessage) : Decidable (GoodMsg m) := by
  unfold GoodMsg; infer_instance

/-- What the loader reconstructs for a good record: same address and
label, flattened body text, timestamp preserved to second precision (the
fields of an invalid timestamp are not persisted). -/
def normMsg (m : PageMessage) : PageMessage :=
  { addr := m.addr, ricName := m.ricName, text := flattenText m.text,
    time := if m.time.valid = true then m.time else zeroTimeInvalid, valid := true }

theorem digit_ne_bar (c : Char) (h : isDigitCh c = true) : c ≠ '|' := by
  intro he; rw [he] at h; exact absurd h (by decide)

theorem digit_ne_nl (c : Char) (h : isDigitCh c = true) : c ≠ '\n' := by
  intro he; rw [he] at h; exact absurd h (by decide)

theorem bar_not_mem_natToDecimal (n : Nat) : '|' ∉ natToDecimal n := by
  intro h
  exact digit_ne_bar '|' (natToDecimal_digits n '|' h) rfl

theorem nl_not_mem_flatten (l : List Char) : '\n' ∉ flattenText l := by
  intro h
  unfold flattenText at h
  obtain ⟨x, _, hx⟩ := List.mem_map.mp h
  by_cases h1 : x = '\n'
  · rw [if_pos h1] at hx; exact absurd hx (by decide)
  · rw [if_neg h1] at hx
    by_cases h2 : x = '\r'
    · rw [if_pos h2] at hx; exact absurd hx (by decide)
    · rw [if_neg h2] at hx; exact h1 hx

theorem padZeros_digits (w n : Nat) : ∀ c ∈ padZeros w (natToDecimal n), isDigitCh c = true := by
  intro c hc
  rcases List.mem_append.mp hc with h | h
  · rw [List.eq_of_mem_replicate h]; decide
  · exact natToDecimal_digits n c h

theorem padZeros_ne_nil (w n : Nat) : padZeros w (natToDecimal n) ≠ [] := by
  unfold padZeros
  intro h
  rcases List.append_eq_nil.mp h with ⟨_, h2⟩
  exact natToDecimal_ne_nil n h2

theorem strToInt_padZeros (w n : Nat) (h : n ≤ 2147483647) :
    strToInt (padZeros w (natToDecimal n)) = (n : Int) := by
  rw [strToInt_digits _ (padZeros_ne_nil w n) (padZeros_digits w n), parse_padZeros]
  rw [if_neg (by omega)]

/-- The timestamp field of an in-range valid time: six zero-padded decimal
blocks, 14 characters in all (so the 15-character `snprintf` cap is
inactive). -/
theorem timeField_valid (t : PagerTime) (hv : t.valid = true)
    (h1 : 0 ≤ t.year) (h2 : t.year ≤ 9999)
    (h3 : 0 ≤ t.month) (h4 : t.month ≤ 99)
    (h5 : 0 ≤ t.day) (h6 : t.day ≤ 99)
    (h7 : 0 ≤ t.hour) (h8 : t.hour ≤ 99)
    (h9 : 0 ≤ t.minute) (h10 : t.minute ≤ 99)
    (h11 : 0 ≤ t.second) (h12 : t.second ≤ 99) :
    timeField t =
      padZeros 4 (natToDecimal t.year.toNat) ++
        (padZeros 2 (natToDecimal t.month.toNat) ++
          (padZeros 2 (natToDecimal t.day.toNat) ++
            (padZeros 2 (natToDecimal t.hour.toNat) ++
              (padZeros 2 (natToDecimal t.minute.toNat) ++
                padZeros 2 (natToDecimal t.second.toNat))))) ∧
    (padZeros 4 (natToDecimal t.year.toNat)).length = 4 ∧
    (padZeros 2 (natToDecimal t.month.toNat)).length = 2 ∧
    (padZeros 2 (natToDecimal t.day.toNat)).length = 2 ∧
    (padZeros 2 (natToDecimal t.hour.toNat)).length = 2 ∧
    (padZeros 2 (natToDecimal t.minute.toNat)).length = 2 ∧
    (padZeros 2 (natToDecimal t.second.toNat)).length = 2 := by
  have ly : (natToDecimal t.year.toNat).length ≤ 4 :=
    natToDecimal_length_le 4 t.year.toNat (by omega) (by omega)
  have lmo : (natToDecimal t.month.toNat).length ≤ 2 :=
    natToDecimal_length_le 2 t.month.toNat (by omega) (by omega)
  have ld : (natToDecimal t.day.toNat).length ≤ 2 :=
    natToDecimal_length_le 2 t.day.toNat (by omega) (by omega)
  have lh : (natToDecimal t.hour.toNat).length ≤ 2 :=
    natToDecimal_length_le 2 t.hour.toNat (by omega) (by omega)
  have lmi : (natToDecimal t.minute.toNat).length ≤ 2 :=
    natToDecimal_length_le 2 t.minute.toNat (by omega) (by omega)
  have ls : (natToDecimal t.second.toNat).length ≤ 2 :=
    natToDecimal_length_le 2 t.second.toNat (by omega) (by omega)
  have py := padZeros_length 4 _ ly
  have pmo := padZeros_length 2 _ lmo
  have pd := padZeros_length 2 _ ld
  have ph := padZeros_length 2 _ lh
  have pmi := padZeros_length 2 _ lmi
  have ps := padZeros_length 2 _ ls
  refine ⟨?_, py, pmo, pd, ph, pmi, ps⟩
  unfold timeField
  rw [if_pos hv]
  unfold intToPadded
  rw [if_neg (by omega), if_neg (by omega), if_neg (by omega), if_neg (by omega),
    if_neg (by omega), if_neg (by omega)]
  rw [List.take_of_length_le (by
    simp only [List.length_append, py, pmo, pd, ph, pmi, ps]
    omega)]
  simp [List.append_assoc]

theorem drop_append_cons {α : Type} (a : List α) (x : α) (r : List α) :
    (a ++ x :: r).drop (a.length + 1) = r := by
  rw [show a ++ x :: r = (a ++ [x]) ++ r by simp]
  exact List.drop_left' (by simp)

theorem take_append_cons {α : Type} (a : List α) (x : α) (r : List α) :
    (a ++ x :: r).take a.length = a :=
  List.take_left' rfl

theorem substr_block (pre mid post : List Char) (s e : Nat)
    (hs : pre.length = s) (he : pre.length + mid.length = e) :
    substr (pre ++ (mid ++ post)) s e = mid := by
  unfold substr
  rw [← hs, ← he, ← List.append_assoc]
  rw [List.take_left' (by simp)]
  exact List.drop_left' rfl


theorem timeField_invalid (t : PagerTime) (hv : ¬ t.valid = true) : timeField t = ['-'] := by
  unfold timeField
  rw [if_neg hv]

theorem pagerTime_eta (t : PagerTime) (h : t.valid = true) :
    ({ year := t.year, month := t.month, day := t.day, hour := t.hour,
       minute := t.minute, second := t.second, valid := true } : PagerTime) = t := by
  cases t
  simp_all

/-- A saved line of a good record parses back to exactly the normalized
record. -/
theorem parse_msgLine (m : PageMessage) (hg : GoodMsg m) :
    parseLine (msgLine m) = some (normMsg m) := by
  obtain ⟨haddr, hbar, hnl, hlast, htime⟩ := hg
  -- delimiters do not occur in the non-text fields
  have hTbar : '|' ∉ timeField m.time := by
    by_cases hv : m.time.valid = true
    · obtain ⟨h1, h2, h3, h4, h5, h6, h7, h8, h9, h10, h11, h12⟩ := htime hv
      obtain ⟨hTF, _⟩ :=
        timeField_valid m.time hv h1 h2 h3 h4 h5 h6 h7 h8 h9 h10 h11 h12
      rw [hTF]
      intro hmem
      simp only [List.mem_append] at hmem
      rcases hmem with h | h | h | h | h | h <;>
        exact digit_ne_bar '|' (padZeros_digits _ _ '|' h) rfl
    · rw [timeField_invalid m.time hv]
      decide
  -- the loader's trim is the identity on the line
  have htrim : trimStr (msgLine m) = msgLine m := by
    apply trimStr_eq_self
    · intro c hc
      rw [show msgLine m =
          natToDecimal m.addr ++
            ('|' :: (m.ricName ++ '|' :: (timeField m.time ++ '|' :: flattenText m.text)))
          from rfl,
        List.head?_append_of_ne_nil _ (natToDecimal_ne_nil m.addr)] at hc
      have hcm : c ∈ natToDecimal m.addr := by
        cases hd : natToDecimal m.addr with
        | nil => exact absurd hd (natToDecimal_ne_nil m.addr)
        | cons a t =>
          rw [hd] at hc
          simp only [List.head?_cons, Option.some.injEq] at hc
          subst hc
          exact List.mem_cons_self _ _
      exact digit_not_space c (natToDecimal_digits m.addr c hcm)
    · intro c hc
      by_cases hF : flattenText m.text = []
      · rw [show msgLine m =
            (natToDecimal m.addr ++
              '|' :: (m.ricName ++ '|' :: (timeField m.time ++ []))) ++ ['|']
            by simp [msgLine, hF],
          List.getLast?_concat] at hc
        rw [show c = '|' by injection hc with h; exact h.symm]
        decide
      · rw [show msgLine m =
            (natToDecimal m.addr ++
              '|' :: (m.ricName ++ '|' :: (timeField m.time ++ ['|']))) ++ flattenText m.text
            by simp [msgLine],
          List.getLast?_append_of_ne_nil _ hF] at hc
        exact lastNotSpace_elim _ hlast c hc
  -- the line is nonempty after trimming
  have hlen0 : ¬ (msgLine m).length = 0 := by
    simp only [msgLine, List.length_append, List.length_cons]
    omega
  -- the three delimiter searches
  have h1 : idxFrom (msgLine m) '|' 0 = some ((natToDecimal m.addr).length) := by
    unfold idxFrom
    rw [List.drop_zero,
      show msgLine m =
        natToDecimal m.addr ++
          '|' :: (m.ricName ++ '|' :: (timeField m.time ++ '|' :: flattenText m.text))
        from rfl,
      firstIdx_append_cons '|' _ _ (bar_not_mem_natToDecimal m.addr)]
    simp
  have h2 : idxFrom (msgLine m) '|' ((natToDecimal m.addr).length + 1) =
      some (m.ricName.length + ((natToDecimal m.addr).length + 1)) := by
    unfold idxFrom
    rw [show msgLine m =
        natToDecimal m.addr ++
          '|' :: (m.ricName ++ '|' :: (timeField m.time ++ '|' :: flattenText m.text))
        from rfl,
      drop_append_cons,
      firstIdx_append_cons '|' _ _ hbar]
    rfl
  have h3 : idxFrom (msgLine m) '|' (m.ricName.length + ((natToDecimal m.addr).length + 1) + 1) =
      some ((timeField m.time).length +
        (m.ricName.length + ((natToDecimal m.addr).length + 1) + 1)) := by
    unfold idxFrom
    rw [show m.ricName.length + ((natToDecimal m.addr).length + 1) + 1 =
        ((natToDecimal m.addr).length + 1) + (m.ricName.length + 1) by omega,
      ← List.drop_drop,
      show msgLine m =
        natToDecimal m.addr ++
          '|' :: (m.ricName ++ '|' :: (timeField m.time ++ '|' :: flattenText m.text))
        from rfl,
      drop_append_cons,
      drop_append_cons,
      firstIdx_append_cons '|' _ _ hTbar]
    rfl
  -- the extracted fields
  have hsAddr : substr (msgLine m) 0 ((natToDecimal m.addr).length) = natToDecimal m.addr := by
    simp only [substr, List.drop_zero]
    exact take_append_cons _ _ _
  have hsRic : substr (msgLine m) ((natToDecimal m.addr).length + 1)
      (m.ricName.length + ((natToDecimal m.addr).length + 1)) = m.ricName := by
    rw [show msgLine m =
        (natToDecimal m.addr ++ ['|']) ++
          (m.ricName ++ ('|' :: (timeField m.time ++ '|' :: flattenText m.text)))
        by simp [msgLine]]
    exact substr_block _ _ _ _ _ (by simp) (by simp; omega)
  have hsTime : substr (msgLine m) (m.ricName.length + ((natToDecimal m.addr).length + 1) + 1)
      ((timeField m.time).length + (m.ricName.length + ((natToDecimal m.addr).length + 1) + 1)) =
      timeField m.time := by
    rw [show msgLine m =
        ((natToDecimal m.addr ++ ['|']) ++ (m.ricName ++ ['|'])) ++
          (timeField m.time ++ ('|' :: flattenText m.text))
        by simp [msgLine]]
    exact substr_block _ _ _ _ _ (by simp; omega) (by simp; omega)
  have hsText : (msgLine m).drop
      ((timeField m.time).length + (m.ricName.length + ((natToDecimal m.addr).length + 1) + 1) + 1)
      = flattenText m.text := by
    rw [show msgLine m =
        (natToDecimal m.addr ++ '|' :: (m.ricName ++ '|' :: (timeField m.time ++ ['|']))) ++
          flattenText m.text
        by simp [msgLine]]
    exact List.drop_left' (by simp; omega)
  -- address round trip
  have haddrEq : toUInt32 (strToInt (natToDecimal m.addr)) = m.addr := by
    rw [strToInt_digits _ (natToDecimal_ne_nil _) (natToDecimal_digits _), parse_natToDecimal]
    rw [if_neg (show ¬ m.addr > 2147483647 by omega)]
    unfold toUInt32
    rw [Int.emod_eq_of_lt (by omega) (by omega)]
    simp
  -- put the line back together
  simp only [parseLine, htrim, if_neg hlen0, h1, h2, h3, hsAddr, hsRic, hsTime, hsText, haddrEq]
  by_cases hv : m.time.valid = true
  · obtain ⟨g1, g2, g3, g4, g5, g6, g7, g8, g9, g10, g11, g12⟩ := htime hv
    obtain ⟨hTF, py, pmo, pd, ph, pmi, ps⟩ :=
      timeField_valid m.time hv g1 g2 g3 g4 g5 g6 g7 g8 g9 g10 g11 g12
    have hTlen : (timeField m.time).length = 14 := by
      rw [hTF]
      simp only [List.length_append, py, pmo, pd, ph, pmi, ps]
    have hcond : timeField m.time ≠ ['-'] ∧ 14 ≤ (timeField m.time).length := by
      constructor
      · intro he
        rw [he] at hTlen
        simp at hTlen
      · omega
    rw [if_pos hcond]
    have e1 : substr (timeField m.time) 0 4 = padZeros 4 (natToDecimal m.time.year.toNat) := by
      simp only [substr, List.drop_zero]
      rw [hTF]
      exact List.take_left' py
    have e2 : substr (timeField m.time) 4 6 = padZeros 2 (natToDecimal m.time.month.toNat) := by
      rw [hTF]
      exact substr_block _ _ _ _ _ py (by rw [py, pmo])
    have e3 : substr (timeField m.time) 6 8 = padZeros 2 (natToDecimal m.time.day.toNat) := by
      rw [hTF, show
        padZeros 4 (natToDecimal m.time.year.toNat) ++
          (padZeros 2 (natToDecimal m.time.month.toNat) ++
            (padZeros 2 (natToDecimal m.time.day.toNat) ++
              (padZeros 2 (natToDecimal m.time.hour.toNat) ++
                (padZeros 2 (natToDecimal m.time.minute.toNat) ++
                  padZeros 2 (natToDecimal m.time.second.toNat))))) =
        (padZeros 4 (natToDecimal m.time.year.toNat) ++
          padZeros 2 (natToDecimal m.time.month.toNat)) ++
          (padZeros 2 (natToDecimal m.time.day.toNat) ++
            (padZeros 2 (natToDecimal m.time.hour.toNat) ++
              (padZeros 2 (natToDecimal m.time.minute.toNat) ++
                padZeros 2 (natToDecimal m.time.second.toNat))))
        by simp]
      exact substr_block _ _ _ _ _ (by rw [List.length_append, py, pmo])
        (by rw [List.length_append, py, pmo, pd])
    have e4 : substr (timeField m.time) 8 10 = padZeros 2 (natToDecimal m.time.hour.toNat) := by
      rw [hTF, show
        padZeros 4 (natToDecimal m.time.year.toNat) ++
          (padZeros 2 (natToDecimal m.time.month.toNat) ++
            (padZeros 2 (natToDecimal m.time.day.toNat) ++
              (padZeros 2 (natToDecimal m.time.hour.toNat) ++
                (padZeros 2 (natToDecimal m.time.minute.toNat) ++
                  padZeros 2 (natToDecimal m.time.second.toNat))))) =
        ((padZeros 4 (natToDecimal m.time.year.toNat) ++
          padZeros 2 (natToDecimal m.time.month.toNat)) ++
          padZeros 2 (natToDecimal m.time.day.toNat)) ++
          (padZeros 2 (natToDecimal m.time.hour.toNat) ++
            (padZeros 2 (natToDecimal m.time.minute.toNat) ++
              padZeros 2 (natToDecimal m.time.second.toNat)))
        by simp]
      exact substr_block _ _ _ _ _
        (by simp only [List.length_append, py, pmo, pd])
        (by simp only [List.length_append, py, pmo, pd, ph])
    have e5 : substr (timeField m.time) 10 12 =
        padZeros 2 (natToDecimal m.time.minute.toNat) := by
      rw [hTF, show
        padZeros 4 (natToDecimal m.time.year.toNat) ++
          (padZeros 2 (natToDecimal m.time.month.toNat) ++
            (padZeros 2 (natToDecimal m.time.day.toNat) ++
              (padZeros 2 (natToDecimal m.time.hour.toNat) ++
                (padZeros 2 (natToDecimal m.time.minute.toNat) ++
                  padZeros 2 (natToDecimal m.time.second.toNat))))) =
        (((padZeros 4 (natToDecimal m.time.year.toNat) ++
          padZeros 2 (natToDecimal m.time.month.toNat)) ++
          padZeros 2 (natToDecimal m.time.day.toNat)) ++
          padZeros 2 (natToDecimal m.time.hour.toNat)) ++
          (padZeros 2 (natToDecimal m.time.minute.toNat) ++
            padZeros 2 (natToDecimal m.time.second.toNat))
        by simp]
      exact substr_block _ _ _ _ _
        (by simp only [List.length_append, py, pmo, pd, ph])
        (by simp only [List.length_append, py, pmo, pd, ph, pmi])
    have e6 : substr (timeField m.time) 12 14 =
        padZeros 2 (natToDecimal m.time.second.toNat) := by
      rw [hTF, show
        padZeros 4 (natToDecimal m.time.year.toNat) ++
          (padZeros 2 (natToDecimal m.time.month.toNat) ++
            (padZeros 2 (natToDecimal m.time.day.toNat) ++
              (padZeros 2 (natToDecimal m.time.hour.toNat) ++
                (padZeros 2 (natToDecimal m.time.minute.toNat) ++
                  padZeros 2 (natToDecimal m.time.second.toNat))))) =
        ((((padZeros 4 (natToDecimal m.time.year.toNat) ++
          padZeros 2 (natToDecimal m.time.month.toNat)) ++
          padZeros 2 (natToDecimal m.time.day.toNat)) ++
          padZeros 2 (natToDecimal m.time.hour.toNat)) ++
          padZeros 2 (natToDecimal m.time.minute.toNat)) ++
          (padZeros 2 (natToDecimal m.time.second.toNat) ++ [])
        by simp]
      exact substr_block _ _ _ _ _
        (by simp only [List.length_append, py, pmo, pd, ph, pmi])
        (by simp only [List.length_append, py, pmo, pd, ph, pmi, ps])
    rw [e1, e2, e3, e4, e5, e6,
      strToInt_padZeros 4 m.time.year.toNat (by omega),
      strToInt_padZeros 2 m.time.month.toNat (by omega),
      strToInt_padZeros 2 m.time.day.toNat (by omega),
      strToInt_padZeros 2 m.time.hour.toNat (by omega),
      strToInt_padZeros 2 m.time.minute.toNat (by omega),
      strToInt_padZeros 2 m.time.second.toNat (by omega),
      Int.toNat_of_nonneg g1, Int.toNat_of_nonneg g3, Int.toNat_of_nonneg g5,
      Int.toNat_of_nonneg g7, Int.toNat_of_nonneg g9, Int.toNat_of_nonneg g11]
    unfold normMsg
    rw [if_pos hv, pagerTime_eta m.time hv]
  · rw [timeField_invalid m.time hv]
    rw [if_neg (by simp)]
    unfold normMsg
    rw [if_neg hv]

/-! ### C1: the save side writes exactly the ring content -/

theorem findOldestGo_spec (st : InboxSt) (hwf : WF st) (hc : 0 < st.inboxCount) :
    ∀ (rem i : Nat), i + rem = 64 → i ≤ 64 - st.inboxCount →
      findOldestGo st i rem = some ((st.inboxWriteIndex + (64 - st.inboxCount)) % 64) := by
  obtain ⟨hlen, hcle, hwi, hslots⟩ := hwf
  intro rem
  induction rem with
  | zero =>
    intro i h1 h2
    omega
  | succ r ih =>
    intro i h1 h2
    rcases Nat.eq_or_lt_of_le h2 with he | hlt
    · have hv : (st.inbox.getD ((st.inboxWriteIndex + i) % 64) defaultMsg).valid = true :=
        (hslots i (by omega)).mpr (by omega)
      simp only [findOldestGo, hv, if_true]
      rw [he]
    · have hv : (st.inbox.getD ((st.inboxWriteIndex + i) % 64) defaultMsg).valid = false := by
        rcases hb : (st.inbox.getD ((st.inboxWriteIndex + i) % 64) defaultMsg).valid with _ | _
        · rfl
        · exact absurd ((hslots i (by omega)).mp hb) (by omega)
      simp only [findOldestGo, hv, Bool.false_eq_true, if_false]
      exact ih (i + 1) (by omega) (by omega)

theorem saveLoop_spec (st : InboxSt) (hwf : WF st) :
    ∀ (fuel j : Nat), j ≤ st.inboxCount → st.inboxCount - j < fuel →
      saveLoop st ((st.inboxWriteIndex + (64 - st.inboxCount) + j) % 64) j fuel =
        some (((ringList st).drop j).map msgLine) := by
  intro fuel
  induction fuel with
  | zero =>
    intro j h1 h2
    omega
  | succ f ih =>
    intro j h1 h2
    rcases Nat.eq_or_lt_of_le h1 with he | hlt
    · rw [saveLoop, if_neg (by omega)]
      rw [List.drop_eq_nil_of_le (by rw [ringList_length]; omega)]
      rfl
    · obtain ⟨hlen, hcle, hwi, hslots⟩ := hwf
      have hv : (st.inbox.getD ((st.inboxWriteIndex + (64 - st.inboxCount) + j) % 64)
          defaultMsg).valid = true := by
        have := (hslots ((64 - st.inboxCount) + j) (by omega)).mpr (by omega)
        rw [show st.inboxWriteIndex + ((64 - st.inboxCount) + j) =
          st.inboxWriteIndex + (64 - st.inboxCount) + j by omega] at this
        exact this
      have hdrop : (ringList st).drop j =
          st.inbox.getD ((st.inboxWriteIndex + (64 - st.inboxCount) + j) % 64) defaultMsg ::
            (ringList st).drop (j + 1) := by
        have hj : j < (ringList st).length := by rw [ringList_length]; omega
        rw [List.drop_eq_getElem_cons hj]
        congr 1
        simp [ringList]
      rw [saveLoop, if_pos hlt]
      simp only [hv, if_true]
      rw [show ((st.inboxWriteIndex + (64 - st.inboxCount) + j) % 64 + 1) % 64 =
        (st.inboxWriteIndex + (64 - st.inboxCount) + (j + 1)) % 64 by omega]
      rw [ih (j + 1) (by omega) (by omega)]
      rw [hdrop]
      simp

theorem saveInboxToFS_spec (st : InboxSt) (hwf : WF st) :
    saveInboxToFS st = some (joinLines ((ringList st).map msgLine)) := by
  unfold saveInboxToFS
  by_cases hc : st.inboxCount = 0
  · rw [if_pos hc]
    have hre : ringList st = [] := by
      unfold ringList
      rw [hc]
      rfl
    rw [hre]
    rfl
  · rw [if_neg hc]
    have hfind : findOldest st =
        some ((st.inboxWriteIndex + (64 - st.inboxCount)) % 64) :=
      findOldestGo_spec st hwf (by omega) 64 0 (by omega) (by omega)
    rw [hfind]
    have hloop := saveLoop_spec st hwf 65 0 (by omega) (by have := hwf.2.1; omega)
    simp only [Nat.add_zero, List.drop_zero] at hloop
    show Option.map joinLines
        (saveLoop st ((st.inboxWriteIndex + (64 - st.inboxCount)) % 64) 0 65) =
      some (joinLines (List.map msgLine (ringList st)))
    rw [hloop]
    rfl

/-! ### C1: the load side re-inserts exactly the parsed lines -/

theorem splitNL_ne_nil : ∀ l : List Char, splitNL l ≠ []
  | [] => by simp [splitNL]
  | x :: xs => by
    simp only [splitNL]
    rcases h : splitNL xs with _ | ⟨r, rs⟩
    · simp
    · by_cases hx : x = '\n' <;> simp [hx]

theorem splitNL_append_newline : ∀ (l rest : List Char), '\n' ∉ l →
    splitNL (l ++ '\n' :: rest) = l :: splitNL rest
  | [], rest => by
    intro _
    simp only [List.nil_append, splitNL]
    rcases h : splitNL rest with _ | ⟨r, rs⟩
    · exact absurd h (splitNL_ne_nil rest)
    · simp
  | c :: l, rest => by
    intro h
    have hc : c ≠ '\n' := fun he => h (by rw [he]; exact List.mem_cons_self _ _)
    simp only [List.cons_append, splitNL, List.append_eq,
      splitNL_append_newline l rest (fun hm => h (List.mem_cons_of_mem _ hm))]
    rw [if_neg hc]

theorem splitNL_joinLines : ∀ (ls : List (List Char)), (∀ l ∈ ls, '\n' ∉ l) →
    splitNL (joinLines ls) = ls ++ [[]]
  | [], _ => rfl
  | l :: ls, h => by
    have : joinLines (l :: ls) = l ++ '\n' :: joinLines ls := by
      simp [joinLines]
    rw [this, splitNL_append_newline l _ (h l (List.mem_cons_self _ _)),
      splitNL_joinLines ls (fun x hx => h x (List.mem_cons_of_mem _ hx))]
    rfl

/-- No newline occurs in a saved line of a good record. -/
theorem msgLine_no_newline (m : PageMessage) (hg : GoodMsg m) : '\n' ∉ msgLine m := by
  obtain ⟨haddr, hbar, hnl, hlast, htime⟩ := hg
  intro hmem
  rw [show msgLine m =
      natToDecimal m.addr ++
        '|' :: (m.ricName ++ '|' :: (timeField m.time ++ '|' :: flattenText m.text))
      from rfl] at hmem
  simp only [List.mem_append, List.mem_cons] at hmem
  rcases hmem with h | h | h | h | h | h | h
  · exact digit_ne_nl '\n' (natToDecimal_digits m.addr '\n' h) rfl
  · exact absurd h.symm (by decide)
  · exact hnl h
  · exact absurd h.symm (by decide)
  · by_cases hv : m.time.valid = true
    · obtain ⟨g1, g2, g3, g4, g5, g6, g7, g8, g9, g10, g11, g12⟩ := htime hv
      obtain ⟨hTF, _⟩ := timeField_valid m.time hv g1 g2 g3 g4 g5 g6 g7 g8 g9 g10 g11 g12
      rw [hTF] at h
      simp only [List.mem_append] at h
      rcases h with h | h | h | h | h | h <;>
        exact digit_ne_nl '\n' (padZeros_digits _ _ '\n' h) rfl
    · rw [timeField_invalid m.time hv] at h
      simp at h
  · exact absurd h.symm (by decide)
  · exact nl_not_mem_flatten m.text h

/-- `restorePushMessage` has the same ring-content effect as
`storeMessage`: append, dropping the oldest when full. -/
theorem restorePush_ring (st : InboxSt) (msg : PageMessage)
    (hlen : st.inbox.length = 64) (hwi : st.inboxWriteIndex < 64)
    (hc : st.inboxCount ≤ 64) :
    (restorePushMessage st msg).inbox.length = 64 ∧
    (restorePushMessage st msg).inboxWriteIndex < 64 ∧
    (restorePushMessage st msg).inboxCount ≤ 64 ∧
    ringList (restorePushMessage st msg) =
      (if st.inboxCount = 64 then (ringList st).drop 1 else ringList st) ++
        [{ msg with valid := true }] := by
  obtain ⟨inb, c, wi, tot, cur⟩ := st
  simp only at hlen hwi hc
  refine ⟨?_, ?_, ?_, ?_⟩
  · simp only [restorePushMessage]
    split <;> simp [hlen]
  · simp only [restorePushMessage]
    split <;> exact Nat.mod_lt _ (by omega)
  · simp only [restorePushMessage]
    split <;> simp <;> omega
  · have key := ringOf_push inb wi c { msg with valid := true } hlen hwi hc
    simp only [restorePushMessage, ringList_eq_ringOf]
    rcases Nat.lt_or_ge c 64 with hlt | hge
    · rw [if_pos hlt] at key ⊢
      rw [if_neg (by omega : ¬ c = 64)] at key ⊢
      exact key
    · have hce : c = 64 := by omega
      subst hce
      rw [if_neg (by omega : ¬ (64 : Nat) < 64)] at key ⊢
      rw [if_pos rfl] at key ⊢
      exact key

/-- `restorePushMessage` folded over a list. -/
def pushAll (st : InboxSt) (msgs : List PageMessage) : InboxSt :=
  msgs.foldl restorePushMessage st

theorem pushAll_spec : ∀ (msgs : List PageMessage) (st : InboxSt),
    st.inbox.length = 64 → st.inboxWriteIndex < 64 → st.inboxCount ≤ 64 →
    (pushAll st msgs).inbox.length = 64 ∧
    (pushAll st msgs).inboxWriteIndex < 64 ∧
    (pushAll st msgs).inboxCount ≤ 64 ∧
    ringList (pushAll st msgs) =
      (ringList st ++ msgs.map (fun m : PageMessage => { m with valid := true })).drop
        (st.inboxCount + msgs.length - 64)
  | [], st => by
    intro hlen hwi hc
    have hz : st.inboxCount + ([] : List PageMessage).length - 64 = 0 := by
      simp; omega
    rw [hz]
    simp only [pushAll, List.foldl_nil, List.map_nil, List.append_nil, List.drop_zero]
    exact ⟨hlen, hwi, hc, trivial⟩
  | msg :: rest, st => by
    intro hlen hwi hc
    obtain ⟨l1, w1, c1, ring1⟩ := restorePush_ring st msg hlen hwi hc
    have step : pushAll st (msg :: rest) = pushAll (restorePushMessage st msg) rest := rfl
    rw [step]
    obtain ⟨l2, w2, c2, ring2⟩ := pushAll_spec rest (restorePushMessage st msg) l1 w1 c1
    refine ⟨l2, w2, c2, ?_⟩
    rw [ring2, ring1]
    have hcount1 : (restorePushMessage st msg).inboxCount =
        if st.inboxCount < 64 then st.inboxCount + 1 else st.inboxCount := by
      have hx := ringList_length (restorePushMessage st msg)
      rw [ring1] at hx
      have hl0 := ringList_length st
      rcases Nat.lt_or_ge st.inboxCount 64 with hlt | hge
      · rw [if_pos hlt]
        rw [if_neg (by omega)] at hx
        simp at hx
        omega
      · have hce : st.inboxCount = 64 := by omega
        rw [if_neg (by omega)]
        rw [if_pos hce] at hx
        simp at hx
        omega
    rw [hcount1]
    rcases Nat.lt_or_ge st.inboxCount 64 with hlt | hge
    · rw [if_pos hlt, if_neg (by omega)]
      rw [List.append_assoc, List.singleton_append]
      have hidx : st.inboxCount + 1 + rest.length - 64 =
          st.inboxCount + (rest.length + 1) - 64 := by omega
      rw [hidx]
      simp [List.map_cons]
    · have hce : st.inboxCount = 64 := by omega
      rw [if_neg (by omega), if_pos hce]
      have hne : ringList st ≠ [] := by
        have := ringList_length st
        intro hnil
        rw [hnil] at this
        simp at this
        omega
      have hidx : st.inboxCount + (msg :: rest).length - 64 =
          (st.inboxCount + rest.length - 64) + 1 := by
        simp; omega
      rw [hidx, drop_succ_append _ _ _ hne]
      rw [List.append_assoc, List.singleton_append]
      have hidx2 : st.inboxCount + rest.length - 64 = rest.length := by omega
      rw [hidx2]
      simp [List.map_cons]

theorem restorePush_count (st : InboxSt) (msg : PageMessage)
    (h : st.inboxCount < 64) :
    (restorePushMessage st msg).inboxCount = st.inboxCount + 1 := by
  obtain ⟨inb, c, wi, tot, cur⟩ := st
  simp only at h
  simp only [restorePushMessage]
  rw [if_pos h]

theorem loadLines_push : ∀ (msgs : List PageMessage) (tail : List (List Char)) (st : InboxSt),
    (∀ m ∈ msgs, parseLine (msgLine m) = some (normMsg m)) →
    st.inboxCount < 64 → st.inboxCount + msgs.length ≤ 64 →
    loadLines (msgs.map msgLine ++ tail) st =
      if st.inboxCount + msgs.length = 64 then pushAll st (msgs.map normMsg)
      else loadLines tail (pushAll st (msgs.map normMsg))
  | [], tail, st => by
    intro hp h1 h2
    rw [if_neg (by simp; omega)]
    simp only [List.map_nil, List.nil_append]
    rfl
  | m :: ms, tail, st => by
    intro hp h1 h2
    simp only [List.length_cons] at h2
    have hm := hp m (List.mem_cons_self _ _)
    simp only [List.map_cons, List.cons_append, List.append_eq, loadLines, hm]
    have hc1 : (restorePushMessage st (normMsg m)).inboxCount = st.inboxCount + 1 :=
      restorePush_count _ _ h1
    by_cases hfull : st.inboxCount + 1 = 64
    · have hms : ms = [] := by
        cases ms with
        | nil => rfl
        | cons a b =>
          simp only [List.length_cons] at h2
          omega
      subst hms
      rw [if_pos (by rw [hc1]; omega)]
      rw [if_pos (by simp; omega)]
      rfl
    · rw [if_neg (by rw [hc1]; omega)]
      rw [loadLines_push ms tail (restorePushMessage st (normMsg m))
        (fun x hx => hp x (List.mem_cons_of_mem _ hx))
        (by omega) (by rw [hc1]; omega)]
      rw [hc1]
      rw [show st.inboxCount + 1 + ms.length = st.inboxCount + (ms.length + 1) by omega]
      rfl

theorem loadLines_empty_line (st : InboxSt) : loadLines [[]] st = st := rfl

/-- C1 (amended): for every well-formed store whose records are "good" —
address within `LONG_MAX`, label free of the delimiter and of newlines,
flattened body not ending in whitespace, and in-range timestamp fields —
saving and re-loading reproduces every record: same address, same label,
body text with line terminators flattened to spaces, timestamp preserved
to second precision (invalid timestamps stay invalid), in the same
oldest-to-newest ring order, and the same record count. -/
theorem c1_roundtrip (st target : InboxSt) (hwf : WF st)
    (htarget : target.inbox.length = 64)
    (hgood : ∀ m ∈ ringList st, GoodMsg m) :
    (saveInboxToFS st).isSome = true ∧
    ringList (loadInboxFromFS target ((saveInboxToFS st).getD [])) =
      (ringList st).map normMsg ∧
    (loadInboxFromFS target ((saveInboxToFS st).getD [])).inboxCount = st.inboxCount := by
  have hsave := saveInboxToFS_spec st hwf
  rw [hsave]
  refine ⟨rfl, ?_⟩
  simp only [Option.getD_some]
  have hsplit : splitNL (joinLines ((ringList st).map msgLine)) =
      (ringList st).map msgLine ++ [[]] :=
    splitNL_joinLines _ (by
      intro l hl
      obtain ⟨m, hm, rfl⟩ := List.mem_map.mp hl
      exact msgLine_no_newline m (hgood m hm))
  have hreset_len : (resetInboxMemory target).inbox.length = 64 := by
    simp [resetInboxMemory, htarget]
  have hreset_c : (resetInboxMemory target).inboxCount = 0 := rfl
  have hreset_w : (resetInboxMemory target).inboxWriteIndex = 0 := rfl
  have hring_len : (ringList st).length = st.inboxCount := ringList_length st
  have hcle : st.inboxCount ≤ 64 := hwf.2.1
  have hload := loadLines_push (ringList st) [[]] (resetInboxMemory target)
    (fun m hm => parse_msgLine m (hgood m hm))
    (by rw [hreset_c]; omega)
    (by rw [hreset_c, hring_len]; omega)
  obtain ⟨pl, pw, pc, pring⟩ :=
    pushAll_spec ((ringList st).map normMsg) (resetInboxMemory target) hreset_len
      (by rw [hreset_w]; omega) (by rw [hreset_c]; omega)
  have hrr : ringList (resetInboxMemory target) = [] := by
    unfold ringList
    rw [hreset_c]
    rfl
  rw [hrr, List.nil_append] at pring
  have hidx0 : (resetInboxMemory target).inboxCount +
      ((ringList st).map normMsg).length - 64 = 0 := by
    rw [hreset_c, List.length_map, hring_len]
    omega
  rw [hidx0, List.drop_zero] at pring
  have hmapid : ((ringList st).map normMsg).map
      (fun m : PageMessage => { m with valid := true }) = (ringList st).map normMsg := by
    rw [List.map_map]
    exact List.map_congr_left (fun a _ => rfl)
  rw [hmapid] at pring
  have hcount : (pushAll (resetInboxMemory target) ((ringList st).map normMsg)).inboxCount =
      st.inboxCount := by
    have := ringList_length (pushAll (resetInboxMemory target) ((ringList st).map normMsg))
    rw [pring, List.length_map, hring_len] at this
    omega
  -- unfold the loader and discharge both branch shapes
  simp only [loadInboxFromFS, hsplit, hload]
  by_cases hfull : (resetInboxMemory target).inboxCount + (ringList st).length = 64
  · rw [if_pos hfull]
    split
    · exact ⟨pring, hcount⟩
    · exact ⟨pring, hcount⟩
  · rw [if_neg hfull, loadLines_empty_line]
    split
    · exact ⟨pring, hcount⟩
    · exact ⟨pring, hcount⟩

def roundtripStore : InboxSt :=
  restorePushMessage emptyInbox
    { addr := 1234, ricName := ['A','l','i','c','e'], text := ['H','i'],
      time := sampleTime, valid := true }

/-- Witness for the amended round-trip theorem: a concrete one-record store
with a good record is saved and reloaded, reproducing the record and the
count; all hypotheses hold by evaluation. -/
theorem c1_roundtrip_witness :
    WF roundtripStore ∧ (∀ m ∈ ringList roundtripStore, GoodMsg m) ∧
    ((saveInboxToFS roundtripStore).isSome = true ∧
     ringList (loadInboxFromFS emptyInbox ((saveInboxToFS roundtripStore).getD [])) =
       (ringList roundtripStore).map normMsg ∧
     (loadInboxFromFS emptyInbox ((saveInboxToFS roundtripStore).getD [])).inboxCount =
       roundtripStore.inboxCount) :=
  ⟨by decide, by decide,
   c1_roundtrip roundtripStore emptyInbox (by decide) (by decide) (by decide)⟩

def trailingSpaceStore : InboxSt :=
  restorePushMessage emptyInbox
    { addr := 1, ricName := ['R'], text := ['a', ' '], time := zeroTimeInvalid, valid := true }

/-- Counterexample to the round-trip claim as stated: a record whose body
text ends in a space is saved verbatim, but the loader trims each line, so
the reloaded body text differs from the flattened original. -/
theorem c1_claim_counterexample :
    (ringList (loadInboxFromFS emptyInbox ((saveInboxToFS trailingSpaceStore).getD []))).map
        PageMessage.text ≠
      (ringList trailingSpaceStore).map (fun m => flattenText m.text) := by
  have hsave : saveInboxToFS trailingSpaceStore =
      some (joinLines ((ringList trailingSpaceStore).map msgLine)) :=
    saveInboxToFS_spec trailingSpaceStore (by decide)
  have hcontent : (saveInboxToFS trailingSpaceStore).getD [] =
      ['1', '|', 'R', '|', '-', '|', 'a', ' ', '\n'] := by
    rw [hsave, Option.getD_some]
    have hline : (ringList trailingSpaceStore).map msgLine =
        [msgLine { addr := 1, ricName := ['R'], text := ['a', ' '],
                   time := zeroTimeInvalid, valid := true }] := rfl
    rw [hline]
    unfold msgLine
    rw [natToDecimal_small 1 (by omega)]
    rfl
  rw [hcontent]
  have hA : (ringList (loadInboxFromFS emptyInbox
      ['1', '|', 'R', '|', '-', '|', 'a', ' ', '\n'])).map PageMessage.text = [['a']] := rfl
  have hB : (ringList trailingSpaceStore).map (fun m => flattenText m.text) =
      [['a', ' ']] := rfl
  rw [hA, hB]
  decide
